import Mathlib

/-!
Verification development for the git-analytics MCP server's parsing and
aggregation core (`src/tools/*.py`).

The Python code is shallowly embedded: each parser/aggregator becomes an
executable Lean function over `String` / `List Char`, mirroring the source
line by line.  Python's machine-level details are modelled as follows:

* Python `int` is `Int` (arbitrary precision in both languages).
* `str.strip()` / `str.splitlines()` / `str.split(sep[, maxsplit])` are
  re-implemented over `List Char` (`stripL`, `pySplitlines`, `pySplitCap`,
  `splitPred`).  `splitlines` is modelled on the newline forms a git
  subprocess emits; the rarer separators Python also recognises, non-ASCII
  whitespace in `strip()`, and the unicode digit forms and underscore
  grouping accepted by Python's `int()` are not modelled - the inputs in
  question are ASCII output of git.
* A Python function that can raise is embedded as `Except String _`; the
  error value carries the offending text (modelling `ValueError` from
  `int()`).
* Python's insertion-ordered `dict` / `collections.Counter` accumulators are
  modelled as association lists updated in place (`upsert`), and `set` as a
  deduplicated list; `list.sort(key=..., reverse=True)` (a stable sort) is
  modelled with `List.insertionSort` over the relation
  `fun a b => key b ≤ key a`, which is stable with exactly Python's
  tie-breaking.
-/

/-- Whitespace characters recognised by Python's `str.strip()` (ASCII part). -/
def pyIsSpace (c : Char) : Bool :=
  c = ' ' || c = '\t' || c = '\n' || c = '\r' || c = '\x0b' || c = '\x0c'

/-- `str.strip()` on a character list. -/
def stripL (cs : List Char) : List Char :=
  ((cs.dropWhile pyIsSpace).reverse.dropWhile pyIsSpace).reverse

/-- Worker for `str.splitlines()`: split at `\n`, `\r\n` or `\r`, no trailing
empty line. -/
def splitLinesGo : List Char → List Char → List (List Char)
  | [], acc => if acc.isEmpty then [] else [acc.reverse]
  | '\r' :: '\n' :: rest, acc => acc.reverse :: splitLinesGo rest []
  | '\r' :: rest, acc => acc.reverse :: splitLinesGo rest []
  | '\n' :: rest, acc => acc.reverse :: splitLinesGo rest []
  | c :: rest, acc => splitLinesGo rest (c :: acc)

/-- `str.splitlines()`. -/
def pySplitlines (s : String) : List (List Char) :=
  splitLinesGo s.data []

/-- Worker for `str.split(sep, maxsplit)`: `cap` is the number of cuts still
allowed. -/
def splitCapGo (sep : Char) : List Char → Nat → List Char → List (List Char)
  | [], _, acc => [acc.reverse]
  | c :: cs, cap, acc =>
    if c = sep then
      match cap with
      | 0 => splitCapGo sep cs 0 (c :: acc)
      | n + 1 => acc.reverse :: splitCapGo sep cs n []
    else
      splitCapGo sep cs cap (c :: acc)

/-- `str.split(sep, maxsplit)` with a single-character separator. -/
def pySplitCap (sep : Char) (cap : Nat) (cs : List Char) : List (List Char) :=
  splitCapGo sep cs cap []

/-- Unlimited split at every character satisfying `p` (keeps empty pieces,
like Python's `str.split(sep)` with an explicit separator). -/
def splitPred (p : Char → Bool) (cs : List Char) : List (List Char) :=
  cs.foldr
    (fun c acc =>
      match acc with
      | [] => [[c]]
      | a :: as => if p c then [] :: a :: as else (c :: a) :: as)
    [[]]

/-- `str.split(sep)` (no maxsplit) with a single-character separator. -/
def splitAllCh (sep : Char) (cs : List Char) : List (List Char) :=
  splitPred (fun c => c = sep) cs

/-- `str.split()` — split on runs of whitespace, dropping empty pieces. -/
def pySplitWs (cs : List Char) : List (List Char) :=
  (splitPred pyIsSpace cs).filter (fun p => ¬ p.isEmpty)

/-- Is `pre` a prefix of `cs`?  (`str.startswith`.) -/
def hasPrefixL : List Char → List Char → Bool
  | [], _ => true
  | _ :: _, [] => false
  | p :: ps, c :: cs => p = c && hasPrefixL ps cs

/-- Substring containment (`needle in haystack`). -/
def containsStrL (needle : List Char) : List Char → Bool
  | [] => needle.isEmpty
  | c :: cs => hasPrefixL needle (c :: cs) || containsStrL needle cs

/-- Worker for splitting on a multi-character separator `s0 :: stail`
(Python `str.split(sep)` for a separator of length ≥ 1), scanning left to
right and taking non-overlapping occurrences. -/
def splitStrGo (s0 : Char) (stail : List Char) : List Char → List Char → List (List Char)
  | [], acc => [acc.reverse]
  | c :: rest, acc =>
    if c = s0 ∧ hasPrefixL stail rest then
      acc.reverse :: splitStrGo s0 stail (rest.drop stail.length) []
    else
      splitStrGo s0 stail rest (c :: acc)
  termination_by cs _ => cs.length
  decreasing_by
    · simp only [List.length_drop, List.length_cons]; omega
    · simp only [List.length_cons]; omega

/-- `str.split(sep)` for a non-empty multi-character separator. -/
def pySplitStr (sep : List Char) (cs : List Char) : List (List Char) :=
  match sep with
  | [] => [cs]
  | s0 :: stail => splitStrGo s0 stail cs []

/-- Digit-string value: `some n` iff the (non-empty) string is all ASCII
digits.  This is also Python's `str.isdigit()` test for ASCII input. -/
def natOfDigitsL (cs : List Char) : Option Nat :=
  if cs ≠ [] ∧ cs.all Char.isDigit then
    some (cs.foldl (fun a c => a * 10 + (c.toNat - 48)) 0)
  else
    none

/-- Python `int(s)`: optional surrounding whitespace, optional sign, digits.
`none` models the `ValueError` raised on anything else. -/
def pyIntL (s : List Char) : Option Int :=
  match stripL s with
  | '+' :: ds => (natOfDigitsL ds).map Int.ofNat
  | '-' :: ds => (natOfDigitsL ds).map (fun n => -(n : Int))
  | ds => (natOfDigitsL ds).map Int.ofNat

/-! ## Data model (`src/tools/git_commit_history.py`) -/

/-- One parsed numstat line of a commit. -/
structure FileChange where
  path : String
  additions : Int
  deletions : Int
deriving DecidableEq, Repr

/-- The `stats` object computed when a commit record is closed out. -/
structure CommitStats where
  total_files : Nat
  total_additions : Int
  total_deletions : Int
deriving DecidableEq, Repr

/-- A parsed commit of `parse_commit_history`. -/
structure CommitRecord where
  hash : String
  author_name : String
  author_email : String
  date : String
  message : String
  files : List FileChange
  stats : CommitStats
deriving DecidableEq, Repr

/-- The in-progress commit (`current_commit` before `stats` is attached). -/
structure PendingCommit where
  hash : String
  author_name : String
  author_email : String
  date : String
  message : String
  files : List FileChange
deriving DecidableEq, Repr

/-- Stats computed from the file list (sum/count, as in the source). -/
def mkStats (files : List FileChange) : CommitStats :=
  { total_files := files.length
    total_additions := (files.map (fun f => f.additions)).sum
    total_deletions := (files.map (fun f => f.deletions)).sum }

/-- Closing out a commit record: attach the computed stats. -/
def finalize (p : PendingCommit) : CommitRecord :=
  { hash := p.hash, author_name := p.author_name, author_email := p.author_email
    date := p.date, message := p.message, files := p.files
    stats := mkStats p.files }

/-- `if current_commit: ... commits.append(current_commit)`. -/
def flushOpt : Option PendingCommit → List CommitRecord
  | none => []
  | some p => [finalize p]

/-- Build `current_commit` from the pipe-split parts of a sentinel line;
`none` iff the split did not give exactly 6 fields. -/
def mkPending (parts : List (List Char)) : Option PendingCommit :=
  match parts with
  | [_, h, an, ae, d, m] =>
    some { hash := String.mk (stripL h), author_name := String.mk (stripL an)
           author_email := String.mk (stripL ae), date := String.mk (stripL d)
           message := String.mk (stripL m), files := [] }
  | _ => none

/-- A numeric numstat field: `-` maps to 0, otherwise Python `int()`
(which raises — modelled as `.error` carrying the field text). -/
def parseNumField (s : List Char) : Except String Int :=
  if stripL s = ['-'] then .ok 0
  else
    match pyIntL s with
    | some n => .ok n
    | none => .error (String.mk s)

/-- A (stripped, non-sentinel, non-empty) line as a file change: tab-split
into exactly 3 fields, else ignored (`.ok none`). -/
def parseFileLine (s : List Char) : Except String (Option FileChange) :=
  match splitAllCh '\t' s with
  | [a, d, f] => do
    let ad ← parseNumField a
    let de ← parseNumField d
    .ok (some { path := String.mk (stripL f), additions := ad, deletions := de })
  | _ => .ok none

/-- The sentinel prefix `COMMIT|`. -/
def sentinelPrefix : List Char := "COMMIT|".data

/-- The scanning loop of `parse_commit_history` over stripped lines. -/
def parseGo : Option PendingCommit → List (List Char) → Except String (List CommitRecord)
  | cur, [] => .ok (flushOpt cur)
  | cur, l :: ls =>
    let s := stripL l
    if hasPrefixL sentinelPrefix s then
      match mkPending (pySplitCap '|' 5 s) with
      | some p => (parseGo (some p) ls).map (fun r => flushOpt cur ++ r)
      | none => (parseGo none ls).map (fun r => flushOpt cur ++ r)
    else
      match cur with
      | none => parseGo none ls
      | some p =>
        if s.isEmpty then parseGo (some p) ls
        else
          match parseFileLine s with
          | .error e => .error e
          | .ok none => parseGo (some p) ls
          | .ok (some fc) =>
            parseGo (some { p with files := p.files ++ [fc] }) ls

/-- `parse_commit_history` (src/tools/git_commit_history.py). -/
def parse_commit_history (raw : String) : Except String (List CommitRecord) :=
  if raw = "" then .ok []
  else parseGo none (pySplitlines raw)

/-! ## Single-file history parser (`src/tools/git_file_changes.py`) -/

/-- The `changes` object of a file-history record. -/
structure FHChanges where
  additions : Int
  deletions : Int
  file_path : Option String
deriving DecidableEq, Repr

/-- A parsed commit of `parse_file_history`. -/
structure FileHistoryRecord where
  hash : String
  author_name : String
  author_email : String
  date : String
  message : String
  changes : FHChanges
deriving DecidableEq, Repr

/-- Build a fresh file-history record from the pipe-split sentinel parts. -/
def mkFHRecord (parts : List (List Char)) : Option FileHistoryRecord :=
  match parts with
  | [_, h, an, ae, d, m] =>
    some { hash := String.mk (stripL h), author_name := String.mk (stripL an)
           author_email := String.mk (stripL ae), date := String.mk (stripL d)
           message := String.mk (stripL m)
           changes := { additions := 0, deletions := 0, file_path := none } }
  | _ => none

/-- The scanning loop of `parse_file_history`;  each 3-field numstat line
overwrites `changes` (the last one before the next sentinel wins). -/
def parseGoFH : Option FileHistoryRecord → List (List Char) → Except String (List FileHistoryRecord)
  | cur, [] => .ok (match cur with | none => [] | some c => [c])
  | cur, l :: ls =>
    let s := stripL l
    let flushed : List FileHistoryRecord := match cur with | none => [] | some c => [c]
    if hasPrefixL sentinelPrefix s then
      match mkFHRecord (pySplitCap '|' 5 s) with
      | some c => (parseGoFH (some c) ls).map (fun r => flushed ++ r)
      | none => (parseGoFH none ls).map (fun r => flushed ++ r)
    else
      match cur with
      | none => parseGoFH none ls
      | some c =>
        if s.isEmpty then parseGoFH (some c) ls
        else
          match splitAllCh '\t' s with
          | [a, d, f] => do
            let ad ← parseNumField a
            let de ← parseNumField d
            parseGoFH (some { c with changes :=
              { additions := ad, deletions := de
                file_path := some (String.mk (stripL f)) } }) ls
          | _ => parseGoFH (some c) ls

/-- `parse_file_history` (src/tools/git_file_changes.py); the `target_file`
argument is unused, as in the source. -/
def parse_file_history (raw : String) (target_file : String) : Except String (List FileHistoryRecord) :=
  if raw = "" then .ok []
  else parseGoFH none (pySplitlines raw)

/-! ## Branch-list parser (`src/tools/git_branches.py`) -/

/-- A parsed branch line. -/
structure BranchRecord where
  name : String
  last_commit_date : String
deriving DecidableEq, Repr

/-- The per-line rule of `parse_branches`: strip; skip empty; split on `|`
with maxsplit 1; keep iff that gives 2 parts whose first is non-blank. -/
def branchLine (l : List Char) : Option BranchRecord :=
  let s := stripL l
  if s.isEmpty then none
  else
    match pySplitCap '|' 1 s with
    | [a, b] =>
      if (stripL a).isEmpty then none
      else some { name := String.mk (stripL a), last_commit_date := String.mk (stripL b) }
    | _ => none

/-- `parse_branches` (src/tools/git_branches.py). -/
def parse_branches (raw : String) : List BranchRecord :=
  (pySplitlines raw).filterMap branchLine

/-! ## Fetch-output and status parsers (`src/tools/git_sync.py`) -/

/-- One branch update reported by `parse_fetch_output`. -/
structure BranchUpdate where
  remote : String
  branch : String
  action : String
deriving DecidableEq, Repr

/-- Result of `parse_fetch_output`. -/
structure FetchResult where
  remotes_synced : List String
  branches_updated : List BranchUpdate
  branches_pruned : List String
  raw_output : String
deriving DecidableEq, Repr

/-- The right-hand side of a `->` line split once on `/`:
`(remote, branch)` if it contains a `/`. -/
def remoteBranchOf (cs : List Char) : Option (String × String) :=
  let bi := stripL cs
  match pySplitCap '/' 1 bi with
  | [r, b] => some (String.mk r, String.mk b)
  | _ => none

/-- Fold state of the fetch-output scan. -/
structure FetchAcc where
  remotes : List String
  updated : List BranchUpdate
  pruned : List String
deriving DecidableEq, Repr

/-- One line of the fetch-transcript scan (both `if`s are independent,
as in the source). -/
def fetchLine (acc : FetchAcc) (l : List Char) : FetchAcc :=
  let s := stripL l
  if s.isEmpty then acc
  else
    let acc :=
      if containsStrL "Fetching".data s then
        match pySplitWs s with
        | _ :: r :: _ =>
          { acc with remotes :=
              if acc.remotes.contains (String.mk r) then acc.remotes
              else acc.remotes ++ [String.mk r] }
        | _ => acc
      else acc
    if containsStrL "->".data s then
      if containsStrL "[new branch]".data s then
        match pySplitStr "->".data s with
        | [_, rhs] =>
          match remoteBranchOf rhs with
          | some (r, b) =>
            { acc with updated := acc.updated ++ [{ remote := r, branch := b, action := "new" }] }
          | none => acc
        | _ => acc
      else if containsStrL "[deleted]".data s ∨ containsStrL "x ".data s then
        match pySplitStr "->".data s with
        | [_, rhs] =>
          match remoteBranchOf rhs with
          | some (_, b) => { acc with pruned := acc.pruned ++ [b] }
          | none => acc
        | _ => acc
      else
        match pySplitStr "->".data s with
        | [_, rhs] =>
          match remoteBranchOf rhs with
          | some (r, b) =>
            { acc with updated := acc.updated ++ [{ remote := r, branch := b, action := "updated" }] }
          | none => acc
        | _ => acc
    else acc

/-- `parse_fetch_output` (src/tools/git_sync.py).  The remote-name `set` is
modelled as a first-encounter-deduplicated list, then sorted ascending
(`sorted(list(remotes_set))`). -/
def parse_fetch_output (raw : String) : FetchResult :=
  if raw = "" then
    { remotes_synced := [], branches_updated := [], branches_pruned := [], raw_output := "" }
  else
    let acc := (pySplitlines raw).foldl fetchLine ⟨[], [], []⟩
    { remotes_synced := List.insertionSort (fun a b => a ≤ b) acc.remotes
      branches_updated := acc.updated
      branches_pruned := acc.pruned
      raw_output := raw }

/-- Result of `parse_status_output`. -/
structure StatusResult where
  current_branch : Option String
  tracking : Option String
  ahead : Nat
  behind : Nat
  sync_status : String
deriving DecidableEq, Repr

/-- The all-null result for empty or non-`##` input. -/
def nullStatus : StatusResult :=
  { current_branch := none, tracking := none, ahead := 0, behind := 0, sync_status := "unknown" }

/-- `int(s) if s.isdigit() else 0`. -/
def digitsOrZero (cs : List Char) : Nat :=
  (natOfDigitsL cs).getD 0

/-- `status_part.split(tok)[1].strip().split(",")[0].strip()` digit value,
for `tok` ∈ {`ahead`, `behind`}. -/
def aheadBehindVal (tok : List Char) (status_part : List Char) : Nat :=
  let seg := ((pySplitStr tok status_part).drop 1).headD []
  digitsOrZero (stripL (((splitAllCh ',' (stripL seg)).headD [])))

/-- `parse_status_output` (src/tools/git_sync.py). -/
def parse_status_output (raw : String) : StatusResult :=
  if raw = "" then nullStatus
  else
    match pySplitlines raw with
    | [] => nullStatus
    | l0 :: _ =>
      let branch_line := stripL l0
      if ¬ hasPrefixL "##".data branch_line then nullStatus
      else
        let branch_info := stripL (branch_line.drop 3)
        let (current_branch, tracking, ahead, behind) :=
          if containsStrL "...".data branch_info then
            let parts := pySplitStr "...".data branch_info
            let current := String.mk (stripL (parts.headD []))
            let rest := stripL ((parts.drop 1).headD [])
            if containsStrL "[".data rest then
              let tracking := String.mk (stripL ((splitAllCh '[' rest).headD []))
              let status_part :=
                (splitAllCh ']' (((splitAllCh '[' rest).drop 1).headD [])).headD []
              let ahead :=
                if containsStrL "ahead".data status_part then
                  aheadBehindVal "ahead".data status_part
                else 0
              let behind :=
                if containsStrL "behind".data status_part then
                  aheadBehindVal "behind".data status_part
                else 0
              (some current, some tracking, ahead, behind)
            else
              (some current, some (String.mk rest), 0, 0)
          else
            if branch_info.isEmpty then (none, none, 0, 0)
            else (some (String.mk ((pySplitWs branch_info).headD [])), none, 0, 0)
        let sync_status :=
          if ahead > 0 ∧ behind > 0 then "diverged"
          else if ahead > 0 then "ahead"
          else if behind > 0 then "behind"
          else "up-to-date"
        { current_branch := current_branch, tracking := tracking
          ahead := ahead, behind := behind, sync_status := sync_status }

/-! ## Shared accumulator machinery

Python's insertion-ordered `dict` (and `defaultdict` / `Counter`) keyed by
strings is modelled as an association list: an update rewrites the value at
the first (unique) matching key in place, a miss appends at the end. -/

/-- Update-or-append on an association list: the Python statements
`d[k] = f(d[k])` (with default `dflt` for a missing key). -/
def upsert (k : String) (f : β → β) (dflt : β) : List (String × β) → List (String × β)
  | [] => [(k, f dflt)]
  | p :: ps => if p.1 = k then (p.1, f p.2) :: ps else p :: upsert k f dflt ps

/-- Association-list lookup. -/
def alookup (k : String) : List (String × β) → Option β
  | [] => none
  | p :: ps => if p.1 = k then some p.2 else alookup k ps

/-- `Counter`-style increment: `counter[k] += 1`. -/
def bump (acc : List (String × Nat)) (k : String) : List (String × Nat) :=
  upsert k (fun n => n + 1) 0 acc

/-- The counts of a key stream (a `collections.Counter` built by iteration,
in first-encounter key order). -/
def countsOf (ks : List String) : List (String × Nat) :=
  ks.foldl bump []

/-- The descending-by-key relation used to model Python's stable
`sort(key=key, reverse=True)` (and `Counter.most_common`). -/
def keyRel (key : α → Int) : α → α → Prop :=
  fun a b => key b ≤ key a

instance (key : α → Int) : DecidableRel (keyRel key) :=
  fun a b => inferInstanceAs (Decidable (key b ≤ key a))

instance (key : α → Int) : IsTotal α (keyRel key) :=
  ⟨fun a b => (le_total (key b) (key a)).imp id id⟩

instance (key : α → Int) : IsTrans α (keyRel key) :=
  ⟨fun _ _ _ hab hbc => le_trans hbc hab⟩

/-- Python's stable descending sort by an integer key. -/
def sortDescBy (key : α → Int) (l : List α) : List α :=
  List.insertionSort (keyRel key) l

/-- `Counter.most_common(n)`: entries sorted by count descending (stable,
so ties keep first-encounter order), truncated to `n`. -/
def mostCommon (n : Nat) (counter : List (String × Nat)) : List (String × Nat) :=
  (sortDescBy (fun p => (p.2 : Int)) counter).take n

/-- Extension label of a path: `'.' + path.split('.')[-1]` when the path
contains a dot (note the prepended dot!), else the literal
`(no extension)`.  (`git_developer_stats.py` uses `split('.')[-1]`,
`git_dashboard.py` uses `rsplit('.', 1)[1]`; both are the text after the
last dot.) -/
def extKey (path : String) : String :=
  if path.data.contains '.' then
    String.mk ('.' :: (path.data.reverse.takeWhile (fun c => c ≠ '.')).reverse)
  else
    "(no extension)"

/-! ## Developer statistics aggregator (`src/tools/git_developer_stats.py`) -/

/-- Per-path accumulator of `analyze_developer_stats`. -/
structure PathAgg where
  commits : Nat
  additions : Int
  deletions : Int
deriving DecidableEq, Repr

/-- One entry of `most_active_files`. -/
structure ActiveFile where
  path : String
  commits : Nat
  additions : Int
  deletions : Int
deriving DecidableEq, Repr

/-- The `file_stats` accumulation loop: for every file of every commit,
bump the per-path counters (insertion-ordered dict). -/
def devFileStats (commits : List CommitRecord) : List (String × PathAgg) :=
  commits.foldl
    (fun fs c =>
      c.files.foldl
        (fun fs f =>
          upsert f.path
            (fun a => { commits := a.commits + 1, additions := a.additions + f.additions
                        deletions := a.deletions + f.deletions })
            { commits := 0, additions := 0, deletions := 0 } fs)
        fs)
    []

/-- The statistics record returned by `analyze_developer_stats`.
`activity_score` models the dict key of that name: absent (`none`) in the
aggregator's own output, added by `compare_developers`. -/
structure DevStats where
  total_commits : Nat
  total_files_changed : Nat
  total_additions : Int
  total_deletions : Int
  most_active_files : List ActiveFile
  file_types : List (String × Nat)
  activity_score : Option Int
deriving DecidableEq, Repr

/-- The all-zero statistics returned for an empty commit list. -/
def emptyDevStats : DevStats :=
  { total_commits := 0, total_files_changed := 0, total_additions := 0
    total_deletions := 0, most_active_files := [], file_types := []
    activity_score := none }

/-- `analyze_developer_stats` (src/tools/git_developer_stats.py). -/
def analyze_developer_stats (commits : List CommitRecord) : DevStats :=
  if commits.isEmpty then emptyDevStats
  else
    let file_stats := devFileStats commits
    let most_active_files :=
      (sortDescBy (fun a => (a.commits : Int))
        (file_stats.map (fun pa =>
          { path := pa.1, commits := pa.2.commits, additions := pa.2.additions
            deletions := pa.2.deletions : ActiveFile }))).take 20
    let file_types := mostCommon 10 (countsOf ((file_stats.map Prod.fst).map extKey))
    { total_commits := commits.length
      total_files_changed := (commits.map (fun c => c.stats.total_files)).sum
      total_additions := (commits.map (fun c => c.stats.total_additions)).sum
      total_deletions := (commits.map (fun c => c.stats.total_deletions)).sum
      most_active_files := most_active_files
      file_types := file_types
      activity_score := none }

/-! ## Developer comparator (`src/tools/git_compare_developers.py`) -/

/-- One `{"developer": ..., "stats": ...}` element of the comparator's
input list. -/
structure DevEntry where
  developer : String
  stats : DevStats
deriving DecidableEq, Repr

/-- A `{"developer": ..., "value": ...}` ranking pick. -/
structure RankEntry where
  developer : String
  value : Int
deriving DecidableEq, Repr

/-- The five rankings. -/
structure Rankings where
  most_commits : Option RankEntry
  most_files_changed : Option RankEntry
  most_additions : Option RankEntry
  most_deletions : Option RankEntry
  most_active : Option RankEntry
deriving DecidableEq, Repr

/-- The totals across all compared developers. -/
structure CompareTotals where
  total_commits : Nat
  total_files_changed : Nat
  total_additions : Int
  total_deletions : Int
deriving DecidableEq, Repr

/-- Result of `compare_developers`. -/
structure ComparisonResult where
  rankings : Rankings
  totals : CompareTotals
deriving DecidableEq, Repr

/-- The all-null comparison returned for an empty input list. -/
def emptyComparison : ComparisonResult :=
  { rankings := { most_commits := none, most_files_changed := none
                  most_additions := none, most_deletions := none, most_active := none }
    totals := { total_commits := 0, total_files_changed := 0
                total_additions := 0, total_deletions := 0 } }

/-- Worker for Python's `max(l, key=key)`: keep the current best, replace
only on strictly greater — so ties keep the first-scanned element. -/
def pyMaxGo (key : α → Int) (cur : α) : List α → α
  | [] => cur
  | x :: xs => pyMaxGo key (if key cur < key x then x else cur) xs

/-- Python's `max(l, key=key)` (`none` on the empty list, where Python
raises; the callers below never reach that case). -/
def pyMaxZ (key : α → Int) : List α → Option α
  | [] => none
  | x :: xs => some (pyMaxGo key x xs)

/-- The in-place mutation
`stats["activity_score"] = stats["total_additions"] + stats["total_deletions"]`
performed by `compare_developers` on each element of its input. -/
def setScore (d : DevEntry) : DevEntry :=
  { d with stats := { d.stats with
      activity_score := some (d.stats.total_additions + d.stats.total_deletions) } }

/-- `compare_developers` (src/tools/git_compare_developers.py), with the
post-call state of the caller-visible input list threaded explicitly:
the second component is the input list after the mutation loop. -/
def compare_developers_full (l : List DevEntry) : ComparisonResult × List DevEntry :=
  if l.isEmpty then (emptyComparison, l)
  else
    let l' := l.map setScore
    let most_commits := pyMaxZ (fun d => (d.stats.total_commits : Int)) l'
    let most_files := pyMaxZ (fun d => (d.stats.total_files_changed : Int)) l'
    let most_additions := pyMaxZ (fun d => d.stats.total_additions) l'
    let most_deletions := pyMaxZ (fun d => d.stats.total_deletions) l'
    let most_active := pyMaxZ (fun d => d.stats.activity_score.getD 0) l'
    ({ rankings :=
        { most_commits := most_commits.map (fun d =>
            { developer := d.developer, value := (d.stats.total_commits : Int) })
          most_files_changed := most_files.map (fun d =>
            { developer := d.developer, value := (d.stats.total_files_changed : Int) })
          most_additions := most_additions.map (fun d =>
            { developer := d.developer, value := d.stats.total_additions })
          most_deletions := most_deletions.map (fun d =>
            { developer := d.developer, value := d.stats.total_deletions })
          most_active := most_active.map (fun d =>
            { developer := d.developer, value := d.stats.activity_score.getD 0 }) }
       totals :=
        { total_commits := (l'.map (fun d => d.stats.total_commits)).sum
          total_files_changed := (l'.map (fun d => d.stats.total_files_changed)).sum
          total_additions := (l'.map (fun d => d.stats.total_additions)).sum
          total_deletions := (l'.map (fun d => d.stats.total_deletions)).sum } },
     l')

/-- The comparison result of `compare_developers` (ignoring the state of
the mutated input list). -/
def compare_developers (l : List DevEntry) : ComparisonResult :=
  (compare_developers_full l).1

/-! ## Dashboard analytics engine (`src/tools/git_dashboard.py`) -/

/-- Configuration thresholds, as in the source. -/
def RISK_HIGH_COMMITS : Nat := 15
def RISK_MEDIUM_COMMITS : Nat := 8
def RISK_HIGH_DEVELOPERS : Nat := 5
def RISK_MEDIUM_DEVELOPERS : Nat := 3
def LOW_ACTIVITY_PERCENTAGE : ℚ := 5
def LOW_ACTIVITY_COMMITS : Nat := 3
def HIGH_CHURN_THRESHOLD : Int := 100
/-- `STABILITY_THRESHOLD = 0.3`, as the exact rational.  The source
compares the IEEE-754 binary64 quotient `net_change / churn` against the
double nearest to 0.3; see `STABILITY_FLOAT_CUTOFF`. -/
def STABILITY_THRESHOLD : ℚ := 0.3

/-- The exact cut of the source's stability test.  CPython evaluates
`net_change / churn > 0.3` by dividing the two ints into the
correctly-rounded binary64 quotient and comparing it with the double
literal `0.3`, whose value is `5404319552844595 / 2^54` (slightly below
3/10).  A correctly-rounded quotient compares greater than that double
exactly when the exact rational quotient is at least the midpoint to the
next double up, `(2 * 5404319552844595 + 1) / 2^55 =
10808639105689191 / 36028797018963968` (the exact midpoint rounds up,
to the even mantissa `5404319552844596`; round-to-nearest is monotone, so
the characterisation holds over the whole positive range).  The one
behaviour this exact model does not reproduce: CPython raises
OverflowError when the quotient exceeds the finite double range, i.e.
when `|net| ≥ (2^1024 - 2^970) * churn`; the stability clauses of the
code-health theorem are therefore stated under the complementary bound. -/
def STABILITY_FLOAT_CUTOFF : ℚ := 10808639105689191 / 36028797018963968

/-- The executive summary.  `avg_commits_per_day` (a float produced from
calendar-date arithmetic and `round(_, 1)`) is presentation-only and not
modelled. -/
structure ExecSummary where
  total_commits : Nat
  total_developers : Nat
  total_files_changed : Nat
  total_additions : Int
  total_deletions : Int
  net_lines : Int
deriving DecidableEq, Repr

/-- `analyze_executive_summary` (src/tools/git_dashboard.py): distinct
developers by author name, distinct files by path (`set` modelled as
`dedup`), totals summed over every file of every commit. -/
def analyze_executive_summary (commits : List CommitRecord) : ExecSummary :=
  if commits.isEmpty then
    { total_commits := 0, total_developers := 0, total_files_changed := 0
      total_additions := 0, total_deletions := 0, net_lines := 0 }
  else
    let allFiles := commits.flatMap (fun c => c.files)
    let total_additions := (allFiles.map (fun f => f.additions)).sum
    let total_deletions := (allFiles.map (fun f => f.deletions)).sum
    { total_commits := commits.length
      total_developers := ((commits.map (fun c => c.author_name)).dedup).length
      total_files_changed := ((allFiles.map (fun f => f.path)).dedup).length
      total_additions := total_additions
      total_deletions := total_deletions
      net_lines := total_additions - total_deletions }

/-- Per-developer accumulator of `analyze_team_performance`
(`files` is a `set`, modelled as a first-encounter-deduplicated list). -/
structure DevAgg where
  commits : Nat
  additions : Int
  deletions : Int
  files : List String
deriving DecidableEq, Repr

/-- The per-developer accumulation loop of `analyze_team_performance`. -/
def teamDevStats (commits : List CommitRecord) : List (String × DevAgg) :=
  commits.foldl
    (fun ds c =>
      let ds := upsert c.author_name (fun a => { a with commits := a.commits + 1 })
        { commits := 0, additions := 0, deletions := 0, files := [] } ds
      c.files.foldl
        (fun ds f =>
          upsert c.author_name
            (fun a => { a with
              additions := a.additions + f.additions
              deletions := a.deletions + f.deletions
              files := if a.files.contains f.path then a.files else a.files ++ [f.path] })
            { commits := 0, additions := 0, deletions := 0, files := [] } ds)
        ds)
    []

/-- One contributor row.  `percentage` is the exact rational
`commits / total_commits * 100`; the source rounds it to one decimal for
display (`round(_, 1)`), which is not modelled. -/
structure Contributor where
  developer : String
  commits : Nat
  percentage : ℚ
  additions : Int
  deletions : Int
  files_touched : Nat
  activity_score : Int
  rank : Option Nat
deriving DecidableEq, Repr

/-- A low-activity alert. -/
structure Alert where
  alert_type : String
  developer : String
  message : String
  severity : String
deriving DecidableEq, Repr

/-- Result of `analyze_team_performance`. -/
structure TeamPerformance where
  top_contributors : List Contributor
  developer_count : Nat
  active_developers : Nat
  alerts : List Alert
deriving DecidableEq, Repr

/-- Assign 1-based ranks to a list of contributors, starting at `i`. -/
def rankContributors (i : Nat) : List Contributor → List Contributor
  | [] => []
  | c :: cs => { c with rank := some i } :: rankContributors (i + 1) cs

/-- `analyze_team_performance` (src/tools/git_dashboard.py). -/
def analyze_team_performance (commits : List CommitRecord) : TeamPerformance :=
  if commits.isEmpty then
    { top_contributors := [], developer_count := 0, active_developers := 0, alerts := [] }
  else
    let dev_stats := teamDevStats commits
    let total_commits := commits.length
    let contributors := dev_stats.map (fun da =>
      { developer := da.1, commits := da.2.commits
        percentage := (da.2.commits : ℚ) / (total_commits : ℚ) * 100
        additions := da.2.additions, deletions := da.2.deletions
        files_touched := da.2.files.length
        activity_score := da.2.additions + da.2.deletions
        rank := none : Contributor })
    let ranked := rankContributors 1 (sortDescBy (fun c => (c.commits : Int)) contributors)
    let alerts := ranked.filterMap (fun c =>
      if c.percentage < LOW_ACTIVITY_PERCENTAGE ∧ c.commits < LOW_ACTIVITY_COMMITS then
        some { alert_type := "low_activity", developer := c.developer
               message := "Only " ++ toString c.commits ++ " commits - low activity"
               severity := "warning" }
      else none)
    { top_contributors := ranked.take 5
      developer_count := dev_stats.length
      active_developers := dev_stats.length
      alerts := alerts }

/-- Per-file accumulator of `analyze_code_health`
(`developers` is a `set`, modelled as a deduplicated list). -/
structure FileAgg where
  commits : Nat
  developers : List String
  additions : Int
  deletions : Int
deriving DecidableEq, Repr

/-- The per-file accumulation loop of `analyze_code_health`. -/
def healthFileStats (commits : List CommitRecord) : List (String × FileAgg) :=
  commits.foldl
    (fun fs c =>
      c.files.foldl
        (fun fs f =>
          upsert f.path
            (fun a =>
              { commits := a.commits + 1
                developers := if a.developers.contains c.author_name then a.developers
                              else a.developers ++ [c.author_name]
                additions := a.additions + f.additions
                deletions := a.deletions + f.deletions })
            { commits := 0, developers := [], additions := 0, deletions := 0 } fs)
        fs)
    []

/-- One hotspot row. -/
structure Hotspot where
  path : String
  commits : Nat
  developers : Nat
  additions : Int
  deletions : Int
  churn : Int
  risk_level : String
  rank : Option Nat
deriving DecidableEq, Repr

/-- Risk classification (thresholds as configured at the top of the
source file). -/
def riskLevelOf (commits devs : Nat) : String :=
  if commits > RISK_HIGH_COMMITS ∨ devs > RISK_HIGH_DEVELOPERS then "high"
  else if commits > RISK_MEDIUM_COMMITS ∨ devs > RISK_MEDIUM_DEVELOPERS then "medium"
  else "low"

/-- The hotspot row of one accumulated file. -/
def mkHotspot (p : String × FileAgg) : Hotspot :=
  { path := p.1, commits := p.2.commits, developers := p.2.developers.length
    additions := p.2.additions, deletions := p.2.deletions
    churn := p.2.additions + p.2.deletions
    risk_level := riskLevelOf p.2.commits p.2.developers.length
    rank := none }

/-- Assign 1-based ranks to hotspots, starting at `i`. -/
def rankHotspots (i : Nat) : List Hotspot → List Hotspot
  | [] => []
  | h :: hs => { h with rank := some i } :: rankHotspots (i + 1) hs

/-- One high-churn row. -/
structure ChurnEntry where
  path : String
  additions : Int
  deletions : Int
  churn : Int
  net_change : Int
  stability : String
deriving DecidableEq, Repr

/-- The high-churn row of one accumulated file (only built when
`churn > HIGH_CHURN_THRESHOLD`).  The stability test is the source's
binary64 comparison `abs(additions - deletions) / churn > 0.3`, modelled
by its exact integer characterisation
`2^55 * |net| ≥ 10808639105689191 * churn` (see
`STABILITY_FLOAT_CUTOFF`; `36028797018963968 = 2^55`, and churn is
positive here). -/
def mkChurnEntry (p : String × FileAgg) : Option ChurnEntry :=
  if p.2.additions + p.2.deletions > HIGH_CHURN_THRESHOLD then
    some { path := p.1, additions := p.2.additions, deletions := p.2.deletions
           churn := p.2.additions + p.2.deletions
           net_change := p.2.additions - p.2.deletions
           stability :=
             if 36028797018963968 * |p.2.additions - p.2.deletions| ≥
                 10808639105689191 * (p.2.additions + p.2.deletions) then
               "stable"
             else "unstable" }
  else none

/-- Result of `analyze_code_health`.  The `file_types_distribution` values
are the counts; the percentage field (a rounded float of
`count / total * 100`) is presentation-only and not modelled. -/
structure CodeHealth where
  hotspots : List Hotspot
  high_churn_files : List ChurnEntry
  file_types_distribution : List (String × Nat)
deriving DecidableEq, Repr

/-- `analyze_code_health` (src/tools/git_dashboard.py). -/
def analyze_code_health (commits : List CommitRecord) : CodeHealth :=
  if commits.isEmpty then
    { hotspots := [], high_churn_files := [], file_types_distribution := [] }
  else
    let file_stats := healthFileStats commits
    let hotspots := sortDescBy (fun h => (h.commits : Int)) (file_stats.map mkHotspot)
    let top_hotspots := rankHotspots 1 (hotspots.take 10)
    let high_churn := file_stats.filterMap mkChurnEntry
    let high_churn_files := (sortDescBy (fun e => e.churn) high_churn).take 5
    let file_types := mostCommon 10 (countsOf ((file_stats.map Prod.fst).map extKey))
    { hotspots := top_hotspots
      high_churn_files := high_churn_files
      file_types_distribution := file_types }

/-! ## The `compare_developer_stats` tool (`src/tools/git_compare_developers.py`)

The tool entry point performs I/O (a repo check, then one `git log` per
author).  It is modelled with an explicit event trace: the external calls
it makes, in order, and the result or the raised error. -/

/-- An external call made by the tool layer. -/
inductive GitEvent
  | ensureRepo
  | fetchLog (author : String)
deriving DecidableEq, Repr

/-- An error raised by the tool layer. -/
inductive GitError
  | notARepo
  | valueError (msg : String)
deriving DecidableEq, Repr

/-- Is an event a request for commit text? -/
def GitEvent.isFetch : GitEvent → Bool
  | .fetchLog _ => true
  | _ => false

/-- The per-author loop of `build_comparison_json`: fetch raw text, parse,
aggregate.  Returns the developer-stats list and the trace of fetches;
a parse error (which in Python propagates as an exception) aborts. -/
def buildComparisonGo (fetch : String → String) :
    List String → Except GitError (List DevEntry) × List GitEvent
  | [] => (.ok [], [])
  | a :: as =>
    match parse_commit_history (fetch a) with
    | .error e => (.error (.valueError e), [.fetchLog a])
    | .ok commits =>
      let stats := analyze_developer_stats commits
      let (res, evs) := buildComparisonGo fetch as
      (res.map (fun l => { developer := a, stats := stats } :: l), .fetchLog a :: evs)

/-- `compare_developer_stats` (the MCP tool body): repo check, then the
2–10 author-count validation, then one `git log` per author (via the
`fetch` oracle), then the comparison.  Only the comparison result is
modelled (the JSON envelope adds query metadata around it). -/
def compare_developer_stats (isRepo : Bool) (authors : List String)
    (fetch : String → String) : Except GitError ComparisonResult × List GitEvent :=
  if ¬ isRepo then (.error .notARepo, [.ensureRepo])
  else if authors.isEmpty ∨ authors.length < 2 then
    (.error (.valueError "Must provide at least 2 developers to compare"), [.ensureRepo])
  else if authors.length > 10 then
    (.error (.valueError "Cannot compare more than 10 developers at once"), [.ensureRepo])
  else
    let (res, evs) := buildComparisonGo fetch authors
    (res.map (fun devs => compare_developers devs), .ensureRepo :: evs)

/-! ## Specification-side definitions

These re-state, in the spec's own terms, what some claims assert; the
theorems below compare them with the embedded source functions. -/

/-- Spec 4.1: "a record begins at a line starting with `COMMIT|`"
(lines are stripped before inspection, as in the source). -/
def isSentinelLine (l : List Char) : Bool :=
  hasPrefixL sentinelPrefix (stripL l)

/-- Cut a line stream into segments: each segment is a sentinel line
together with the following non-sentinel lines; lines before the first
sentinel belong to no segment. -/
def chunksOf : List (List Char) → List (List Char × List (List Char))
  | [] => []
  | l :: ls =>
    if isSentinelLine l then
      (l, ls.takeWhile (fun x => !(isSentinelLine x))) ::
        chunksOf (ls.dropWhile (fun x => !(isSentinelLine x)))
    else chunksOf ls
  termination_by ls => ls.length
  decreasing_by
    all_goals simp only [List.length_cons]
    · have h : ∀ (xs : List (List Char)),
          (xs.dropWhile (fun x => !(isSentinelLine x))).length ≤ xs.length := by
        intro xs
        induction xs with
        | nil => simp [List.dropWhile]
        | cons a as ih => simp only [List.dropWhile]; split <;> simp <;> omega
      exact Nat.lt_succ_of_le (h _)
    · omega

/-- Spec 4.1, per-record body: a non-sentinel line contributes a
`FileChange` iff it tab-splits into exactly 3 fields; other (and blank)
lines are silently ignored; `-` maps to 0.  A non-integer numeric field
propagates the `int()` error. -/
def specFiles : List (List Char) → Except String (List FileChange)
  | [] => .ok []
  | l :: ls =>
    let s := stripL l
    if s.isEmpty then specFiles ls
    else
      match parseFileLine s with
      | .error e => .error e
      | .ok none => specFiles ls
      | .ok (some fc) => (specFiles ls).map (fun fs => fc :: fs)

/-- Spec 4.1, per-segment rule: a segment whose sentinel splits (capping at
5 cuts) into exactly 6 pipe fields yields one record carrying the segment's
file changes (possibly zero of them) and recomputed stats; any other
segment is discarded wholesale. -/
def specRecord (c : List Char × List (List Char)) : Except String (Option CommitRecord) :=
  match mkPending (pySplitCap '|' 5 (stripL c.1)) with
  | none => .ok none
  | some p => (specFiles c.2).map (fun fs => some (finalize { p with files := fs }))

/-- All records of a segment stream, in order. -/
def specRecords : List (List Char × List (List Char)) → Except String (List CommitRecord)
  | [] => .ok []
  | c :: cs =>
    match specRecord c with
    | .error e => .error e
    | .ok none => specRecords cs
    | .ok (some r) => (specRecords cs).map (fun rs => r :: rs)

/-- The commit-log parser as the spec describes it: split into lines,
segment at sentinel lines, keep the records of the valid segments (the
final one needs no trailing sentinel). -/
def commitLogSpec (raw : String) : Except String (List CommitRecord) :=
  specRecords (chunksOf (pySplitlines raw))

/-- The maximum of a list of integers (`none` for the empty list). -/
def listMaxZ : List Int → Option Int
  | [] => none
  | x :: xs =>
    match listMaxZ xs with
    | none => some x
    | some m => some (max x m)

/-- The spec's ranking rule: the maximum of the metric over the list, the
tie going to the first-scanned element attaining it. -/
def firstArgmaxZ (key : α → Int) (l : List α) : Option α :=
  (listMaxZ (l.map key)).bind (fun m => l.find? (fun a => key a = m))

/-- The branch-line rule that actually governs `parse_branches`
(stated for the corrected claim C8): a stripped line is kept iff it is
non-empty, contains a `|`, and the text before the *first* `|` is
non-blank; the date field is everything after the first `|` (it may be
blank or contain further pipes). -/
def branchLineSpec (l : List Char) : Option BranchRecord :=
  let s := stripL l
  if s.isEmpty then none
  else if s.contains '|' then
    let name := s.takeWhile (fun c => c ≠ '|')
    let date := (s.dropWhile (fun c => c ≠ '|')).tail
    if (stripL name).isEmpty then none
    else some { name := String.mk (stripL name), last_commit_date := String.mk (stripL date) }
  else none

/-- `parse_branches` as the (corrected) spec describes it: the kept lines,
in input order. -/
def parse_branches_spec (raw : String) : List BranchRecord :=
  (pySplitlines raw).filterMap branchLineSpec

/-- The distinct touched paths of a commit sequence (the extension
histograms count each distinct path exactly once). -/
def distinctTouchedPaths (commits : List CommitRecord) : List String :=
  (commits.flatMap (fun c => c.files.map (fun f => f.path))).dedup

/-! ## Helper lemmas -/

theorem exceptMap_map (x : Except ε α) (f : α → β) (g : β → γ) :
    (x.map f).map g = x.map (fun a => g (f a)) := by
  cases x <;> rfl

theorem exceptMap_nil_append (x : Except ε (List α)) :
    x.map (fun r => [] ++ r) = x := by
  cases x <;> rfl

theorem exceptMap_id (x : Except ε α) :
    x.map (fun a => a) = x := by
  cases x <;> rfl

theorem mkPending_files {parts : List (List Char)} {p : PendingCommit}
    (h : mkPending parts = some p) : p.files = [] := by
  unfold mkPending at h
  split at h
  · cases h; rfl
  · exact absurd h (by simp)

theorem dropWhile_head_not (p : α → Bool) (l : List α) :
    l.dropWhile p = [] ∨ ∃ r rs, l.dropWhile p = r :: rs ∧ p r = false := by
  induction l with
  | nil => exact Or.inl rfl
  | cons a as ih =>
    by_cases h : p a
    · simpa [List.dropWhile, h] using ih
    · exact Or.inr ⟨a, as, by simp [List.dropWhile, h], by simp [h]⟩

/-- Processing a run of non-sentinel lines with an active record collects
exactly the file changes that `specFiles` extracts (or dies on the same
`int()` error). -/
theorem parseGo_body (body : List (List Char))
    (hb : ∀ l ∈ body, isSentinelLine l = false) (p : PendingCommit)
    (rest : List (List Char)) :
    parseGo (some p) (body ++ rest) =
      match specFiles body with
      | .error e => .error e
      | .ok fs => parseGo (some { p with files := p.files ++ fs }) rest := by
  induction body generalizing p with
  | nil => simp [specFiles]
  | cons l ls ih =>
    have hl : isSentinelLine l = false := hb l (by simp)
    have hls : ∀ x ∈ ls, isSentinelLine x = false := fun x hx => hb x (by simp [hx])
    simp only [isSentinelLine] at hl
    simp only [List.cons_append, parseGo, hl, Bool.false_eq_true, if_false, specFiles]
    by_cases he : (stripL l).isEmpty
    · simp only [he, if_true]
      exact ih hls p
    · simp only [he, if_false, Bool.false_eq_true]
      cases hf : parseFileLine (stripL l) with
      | error e => rfl
      | ok ofc =>
        cases ofc with
        | none => exact ih hls p
        | some fc =>
          simp only [List.append_eq]
          rw [ih hls]
          cases hsf : specFiles ls with
          | error e => simp [Except.map]
          | ok fs => simp [Except.map, List.append_assoc]

/-- With no active record, a run of non-sentinel lines is skipped entirely
(this is how an invalid sentinel discards its whole segment). -/
theorem parseGo_skip (body : List (List Char))
    (hb : ∀ l ∈ body, isSentinelLine l = false) (rest : List (List Char)) :
    parseGo none (body ++ rest) = parseGo none rest := by
  induction body with
  | nil => rfl
  | cons l ls ih =>
    have hl : isSentinelLine l = false := hb l (by simp)
    simp only [isSentinelLine] at hl
    simp only [List.cons_append, parseGo, hl, Bool.false_eq_true, if_false]
    exact ih (fun x hx => hb x (by simp [hx]))

/-- At a segment boundary (end of input or a sentinel line), an active
record is flushed in front of whatever the rest of the input produces. -/
theorem parseGo_flush (rest : List (List Char))
    (hrest : rest = [] ∨ ∃ r rs, rest = r :: rs ∧ isSentinelLine r = true)
    (p : PendingCommit) :
    parseGo (some p) rest = (parseGo none rest).map (fun l => finalize p :: l) := by
  rcases hrest with h | ⟨r, rs, hrr, hr⟩
  · subst h; rfl
  · subst hrr
    simp only [isSentinelLine] at hr
    simp only [parseGo, hr, if_true]
    cases hmk : mkPending (pySplitCap '|' 5 (stripL r)) with
    | some q =>
      rw [exceptMap_map]
      rfl
    | none =>
      rw [exceptMap_map]
      rfl

/-- The scanning loop, started with no active record, produces exactly the
records of the sentinel-delimited segments. -/
theorem parseGo_eq_spec : ∀ (n : Nat) (lines : List (List Char)), lines.length ≤ n →
    parseGo none lines = specRecords (chunksOf lines) := by
  intro n
  induction n with
  | zero =>
    intro lines h
    have : lines = [] := by cases lines <;> simp_all
    subst this
    simp [parseGo, chunksOf, specRecords, flushOpt]
  | succ n ih =>
    intro lines hlen
    match lines with
    | [] => simp [parseGo, chunksOf, specRecords, flushOpt]
    | l :: ls =>
      cases hsent : isSentinelLine l with
      | false =>
        have hl := hsent
        simp only [isSentinelLine] at hl
        have h1 : parseGo none (l :: ls) = parseGo none ls := by
          simp only [parseGo, hl, Bool.false_eq_true, if_false]
        have h2 : chunksOf (l :: ls) = chunksOf ls := by
          rw [chunksOf]
          simp [hsent]
        rw [h1, h2]
        exact ih ls (by simp at hlen; omega)
      | true =>
        have hl := hsent
        simp only [isSentinelLine] at hl
        have hbody : ∀ x ∈ ls.takeWhile (fun x => !(isSentinelLine x)),
            isSentinelLine x = false := by
          intro x hx
          have := List.takeWhile_prefix (l := ls) (p := fun x => !(isSentinelLine x))
          have hmem := List.mem_takeWhile_imp hx
          simpa using hmem
        have hsplit : ls.takeWhile (fun x => !(isSentinelLine x)) ++
            ls.dropWhile (fun x => !(isSentinelLine x)) = ls :=
          List.takeWhile_append_dropWhile _ _
        have hrest : ls.dropWhile (fun x => !(isSentinelLine x)) = [] ∨
            ∃ r rs, ls.dropWhile (fun x => !(isSentinelLine x)) = r :: rs ∧
              isSentinelLine r = true := by
          rcases dropWhile_head_not (fun x => !(isSentinelLine x)) ls with h | ⟨r, rs, hrr, hr⟩
          · exact Or.inl h
          · exact Or.inr ⟨r, rs, hrr, by simpa using hr⟩
        have hdroplen : (ls.dropWhile (fun x => !(isSentinelLine x))).length ≤ ls.length := by
          have : ∀ (xs : List (List Char)),
              (xs.dropWhile (fun x => !(isSentinelLine x))).length ≤ xs.length := by
            intro xs
            induction xs with
            | nil => simp [List.dropWhile]
            | cons a as ih2 => simp only [List.dropWhile]; split <;> simp <;> omega
          exact this ls
        have hchunks : chunksOf (l :: ls) =
            (l, ls.takeWhile (fun x => !(isSentinelLine x))) ::
              chunksOf (ls.dropWhile (fun x => !(isSentinelLine x))) := by
          rw [chunksOf]
          simp [hsent]
        have hih : parseGo none (ls.dropWhile (fun x => !(isSentinelLine x))) =
            specRecords (chunksOf (ls.dropWhile (fun x => !(isSentinelLine x)))) := by
          apply ih
          simp at hlen
          omega
        rw [hchunks]
        simp only [parseGo, hl, if_true, flushOpt, List.nil_append]
        split
        next p hmk =>
          have hbodyEq := parseGo_body _ hbody p (ls.dropWhile (fun x => !(isSentinelLine x)))
          rw [hsplit] at hbodyEq
          rw [exceptMap_id, hbodyEq]
          simp only [specRecords, specRecord, hmk]
          cases hsf : specFiles (ls.takeWhile (fun x => !(isSentinelLine x))) with
          | error e => simp [Except.map]
          | ok fs =>
            simp only [Except.map]
            rw [parseGo_flush _ hrest, hih]
            have hp : p.files = [] := mkPending_files hmk
            simp only [hp, List.nil_append]
            cases specRecords (chunksOf (ls.dropWhile (fun x => !(isSentinelLine x)))) <;> rfl
        next hmk =>
          have hskip := parseGo_skip _ hbody (ls.dropWhile (fun x => !(isSentinelLine x)))
          rw [hsplit] at hskip
          rw [exceptMap_id, hskip, hih]
          simp only [specRecords, specRecord, hmk]

/-- The commit-log parser agrees with its segment-level description on
every input. -/
theorem parse_commit_history_eq_spec_aux (raw : String) :
    parse_commit_history raw = commitLogSpec raw := by
  unfold parse_commit_history commitLogSpec
  by_cases h : raw = ""
  · subst h
    have h0 : pySplitlines "" = [] := rfl
    rw [h0]
    simp [chunksOf, specRecords]
  · simp only [h, if_false]
    exact parseGo_eq_spec (pySplitlines raw).length _ le_rfl

theorem exceptMap_eq_ok {x : Except ε α} {f : α → β} {b : β}
    (h : x.map f = .ok b) : ∃ a, x = .ok a ∧ b = f a := by
  cases x with
  | ok a => exact ⟨a, rfl, by injection h with h; exact h.symm⟩
  | error e => simp [Except.map] at h

/-- Every record a segment stream produces carries stats recomputed from
its own file list. -/
theorem specRecords_stats : ∀ (cs : List (List Char × List (List Char)))
    (res : List CommitRecord), specRecords cs = .ok res →
    ∀ r ∈ res, r.stats = mkStats r.files := by
  intro cs
  induction cs with
  | nil =>
    intro res h r hr
    simp only [specRecords] at h
    injection h with h
    subst h
    simp at hr
  | cons c cs ih =>
    intro res h r hr
    simp only [specRecords] at h
    split at h
    · exact absurd h (by simp)
    · exact ih res h r hr
    next r0 hr0 =>
      obtain ⟨res', h1, h2⟩ := exceptMap_eq_ok h
      subst h2
      rcases List.mem_cons.mp hr with hre | hre
      · subst hre
        simp only [specRecord] at hr0
        split at hr0
        · exact absurd hr0 (by simp)
        next p hp =>
          obtain ⟨fs, _, hfs2⟩ := exceptMap_eq_ok hr0
          injection hfs2 with hfs2
          subst hfs2
          rfl
      · exact ih res' h1 r hre

theorem listMaxZ_mem : ∀ {l : List Int} {m : Int}, listMaxZ l = some m → m ∈ l := by
  intro l
  induction l with
  | nil => intro m h; simp [listMaxZ] at h
  | cons x xs ih =>
    intro m h
    simp only [listMaxZ] at h
    cases hxs : listMaxZ xs with
    | none => rw [hxs] at h; injection h with h; simp [h.symm]
    | some m' =>
      rw [hxs] at h
      injection h with h
      rcases max_choice x m' with hc | hc <;> rw [hc] at h
      · simp [h.symm]
      · exact List.mem_cons_of_mem _ (h ▸ ih hxs)

theorem listMaxZ_eq_none {l : List Int} : listMaxZ l = none ↔ l = [] := by
  cases l with
  | nil => simp [listMaxZ]
  | cons x xs =>
    simp only [listMaxZ]
    constructor
    · intro h; split at h <;> exact absurd h (by simp)
    · intro h; exact absurd h (by simp)

theorem listMaxZ_le {l : List Int} {m : Int} (h : listMaxZ l = some m) :
    ∀ x ∈ l, x ≤ m := by
  induction l generalizing m with
  | nil => simp [listMaxZ] at h
  | cons x xs ih =>
    intro y hy
    simp only [listMaxZ] at h
    cases hxs : listMaxZ xs with
    | none =>
      rw [hxs] at h
      injection h with h
      have : xs = [] := listMaxZ_eq_none.mp hxs
      subst this
      simp at hy
      omega
    | some m' =>
      rw [hxs] at h
      injection h with h
      rcases List.mem_cons.mp hy with hy | hy
      · subst hy; omega
      · have := ih hxs y hy; omega

/-- `pyMaxGo key cur xs`: replace `cur` by the first element of `xs` whose
key strictly exceeds every key seen so far; i.e. it is `cur` unless the
list maximum `m` strictly beats `key cur`, in which case it is the first
element attaining `m`. -/
theorem pyMaxGo_spec (key : α → Int) : ∀ (xs : List α) (m : Int),
    listMaxZ (xs.map key) = some m → ∀ cur,
    pyMaxGo key cur xs =
      if key cur < m then (xs.find? (fun a => key a = m)).getD cur else cur := by
  intro xs
  induction xs with
  | nil => intro m h cur; simp [listMaxZ] at h
  | cons x xs ih =>
    intro M h cur
    simp only [List.map_cons, listMaxZ] at h
    cases hxs : listMaxZ (xs.map key) with
    | none =>
      rw [hxs] at h
      injection h with h
      have hx : xs = [] := by
        have := listMaxZ_eq_none.mp hxs
        simpa using this
      subst hx
      subst h
      by_cases h1 : key cur < key x <;>
        simp [pyMaxGo, List.find?, h1]
    | some m' =>
      rw [hxs] at h
      injection h with h
      have hMx : key x ≤ M := by rw [← h]; exact le_max_left _ _
      have hMm : m' ≤ M := by rw [← h]; exact le_max_right _ _
      have hMor : M = key x ∨ M = m' := by
        rcases max_choice (key x) m' with hc | hc <;> rw [hc] at h <;> omega
      simp only [pyMaxGo]
      rw [ih m' hxs]
      by_cases h1 : key cur < key x
      · simp only [h1, if_true]
        by_cases h2 : key x < m'
        · obtain rfl : M = m' := by omega
          obtain ⟨y, hy, hyk⟩ := List.mem_map.mp (listMaxZ_mem hxs)
          obtain ⟨w, hw⟩ := Option.isSome_iff_exists.mp
            (show (xs.find? (fun a => key a = M)).isSome from
              List.find?_isSome.mpr ⟨y, hy, by simp [hyk]⟩)
          have hcur : key cur < M := by omega
          have hxne : (decide (key x = M)) = false := by simp; omega
          simp [h2, hcur, List.find?, hxne, hw]
        · obtain rfl : M = key x := by omega
          simp [h2, h1, List.find?]
      · simp only [h1, if_false]
        by_cases h2 : key cur < M
        · obtain rfl : M = m' := by omega
          obtain ⟨y, hy, hyk⟩ := List.mem_map.mp (listMaxZ_mem hxs)
          obtain ⟨w, hw⟩ := Option.isSome_iff_exists.mp
            (show (xs.find? (fun a => key a = M)).isSome from
              List.find?_isSome.mpr ⟨y, hy, by simp [hyk]⟩)
          have hxne : (decide (key x = M)) = false := by simp; omega
          simp [h2, List.find?, hxne, hw]
        · have hcm : ¬ key cur < m' := by omega
          simp [h2, hcm]

/-- Python's `max(key=...)` is: the maximum of the metric, the tie going to
the first-scanned candidate. -/
theorem listMaxZ_cons_none {xs : List Int} (x : Int) (h : listMaxZ xs = none) :
    listMaxZ (x :: xs) = some x := by
  simp [listMaxZ, h]

theorem listMaxZ_cons_some {xs : List Int} {m : Int} (x : Int) (h : listMaxZ xs = some m) :
    listMaxZ (x :: xs) = some (max x m) := by
  simp [listMaxZ, h]

theorem pyMaxZ_eq_firstArgmax (key : α → Int) (l : List α) :
    pyMaxZ key l = firstArgmaxZ key l := by
  cases l with
  | nil => rfl
  | cons x xs =>
    simp only [pyMaxZ, firstArgmaxZ, List.map_cons]
    cases hxs : listMaxZ (xs.map key) with
    | none =>
      rw [listMaxZ_cons_none (key x) hxs]
      have hx : xs = [] := by simpa using listMaxZ_eq_none.mp hxs
      subst hx
      simp [pyMaxGo, Option.bind, List.find?]
    | some m' =>
      rw [listMaxZ_cons_some (key x) hxs, pyMaxGo_spec key xs m' hxs x]
      by_cases h2 : key x < m'
      · have hmax : max (key x) m' = m' := by omega
        rw [hmax]
        obtain ⟨y, hy, hyk⟩ := List.mem_map.mp (listMaxZ_mem hxs)
        obtain ⟨w, hw⟩ := Option.isSome_iff_exists.mp
          (show (xs.find? (fun a => key a = m')).isSome from
            List.find?_isSome.mpr ⟨y, hy, by simp [hyk]⟩)
        have hxne : (decide (key x = m')) = false := by simp; omega
        simp [h2, Option.bind, List.find?, hxne, hw]
      · have hmax : max (key x) m' = key x := by omega
        rw [hmax]
        simp [h2, Option.bind, List.find?]

theorem pyMaxGo_map (key : β → Int) (f : α → β) :
    ∀ (l : List α) (cur : α),
    pyMaxGo key (f cur) (l.map f) = f (pyMaxGo (fun a => key (f a)) cur l) := by
  intro l
  induction l with
  | nil => intro cur; rfl
  | cons x xs ih =>
    intro cur
    simp only [List.map_cons, pyMaxGo]
    by_cases h : key (f cur) < key (f x)
    · simp only [h, if_true]
      exact ih x
    · simp only [h, if_false]
      exact ih cur

theorem pyMaxZ_map (key : β → Int) (f : α → β) (l : List α) :
    pyMaxZ key (l.map f) = (pyMaxZ (fun a => key (f a)) l).map f := by
  cases l with
  | nil => rfl
  | cons x xs =>
    simp only [List.map_cons, pyMaxZ]
    rw [pyMaxGo_map]
    rfl

theorem sortDescBy_perm (key : α → Int) (l : List α) :
    List.Perm (sortDescBy key l) l :=
  List.perm_insertionSort _ l

theorem sortDescBy_sorted (key : α → Int) (l : List α) :
    List.Pairwise (keyRel key) (sortDescBy key l) :=
  List.sorted_insertionSort _ l

/-- A member of a sorted list is in its `n`-prefix, or the prefix is full
and every element of it dominates the member. -/
theorem mem_take_or_bound {r : α → α → Prop} {l : List α}
    (hs : List.Pairwise r l) {c : α} (hc : c ∈ l) (n : Nat) :
    c ∈ l.take n ∨ ((l.take n).length = n ∧ ∀ e ∈ l.take n, r e c) := by
  have hsplit := List.take_append_drop n l
  rcases List.mem_append.mp (show c ∈ l.take n ++ l.drop n by rw [hsplit]; exact hc) with h | h
  · exact Or.inl h
  · right
    have hpw := List.pairwise_append.mp
      (show List.Pairwise r (l.take n ++ l.drop n) by rw [hsplit]; exact hs)
    refine ⟨?_, fun e he => hpw.2.2 e he c h⟩
    have hne : l.drop n ≠ [] := by
      intro he
      rw [he] at h
      simp at h
    have hlt : n < l.length := by
      by_contra hc2
      push_neg at hc2
      exact hne (List.drop_eq_nil_of_le hc2)
    simp [List.length_take]
    omega

theorem alookup_upsert (k : String) (f : β → β) (d : β) (acc : List (String × β)) (q : String) :
    alookup q (upsert k f d acc) =
      if q = k then some (f ((alookup k acc).getD d)) else alookup q acc := by
  induction acc with
  | nil =>
    by_cases h : q = k
    · subst h; simp [upsert, alookup]
    · have h2 : ¬ k = q := fun hc => h hc.symm
      simp [upsert, alookup, h, h2]
  | cons p ps ih =>
    by_cases hq : q = k
    · subst hq
      by_cases hp : p.1 = q
      · simp [upsert, alookup, hp]
      · simp [upsert, alookup, hp, ih]
    · have hq2 : ¬ k = q := fun hc => hq hc.symm
      by_cases hp : p.1 = k
      · have hpq : ¬ p.1 = q := by rw [hp]; exact hq2
        simp [upsert, alookup, hp, hq, hq2, hpq]
      · by_cases hpq : p.1 = q
        · simp [upsert, alookup, hp, hpq, hq]
        · simp [upsert, alookup, hp, hpq, hq, ih]

theorem upsert_keys_mem (k : String) (f : β → β) (d : β) (acc : List (String × β)) (q : String) :
    q ∈ (upsert k f d acc).map Prod.fst ↔ q ∈ acc.map Prod.fst ∨ q = k := by
  induction acc with
  | nil => simp [upsert, eq_comm]
  | cons p ps ih =>
    by_cases hp : p.1 = k
    · subst hp
      simp [upsert]
      tauto
    · simp [upsert, hp, ih]
      tauto

theorem upsert_keys_nodup (k : String) (f : β → β) (d : β) (acc : List (String × β))
    (h : (acc.map Prod.fst).Nodup) : ((upsert k f d acc).map Prod.fst).Nodup := by
  induction acc with
  | nil => simp [upsert]
  | cons p ps ih =>
    simp only [List.map_cons, List.nodup_cons] at h
    by_cases hp : p.1 = k
    · subst hp
      simpa [upsert, List.nodup_cons] using h
    · simp only [upsert, hp, if_false, List.map_cons, List.nodup_cons]
      refine ⟨?_, ih h.2⟩
      rw [upsert_keys_mem]
      rintro (hc | hc)
      · exact h.1 hc
      · exact hp hc

theorem alookup_eq_none (q : String) (acc : List (String × β)) :
    alookup q acc = none ↔ q ∉ acc.map Prod.fst := by
  induction acc with
  | nil => simp [alookup]
  | cons p ps ih =>
    by_cases hp : p.1 = q
    · simp [alookup, hp]
    · simp only [alookup, hp, if_false, List.map_cons, List.mem_cons, ih]
      constructor
      · intro h1
        rintro (hc | hc)
        · exact hp hc.symm
        · exact h1 hc
      · intro h1 hc
        exact h1 (Or.inr hc)

theorem mem_alookup_of_nodup {acc : List (String × β)}
    (h : (acc.map Prod.fst).Nodup) {k : String} {v : β} :
    (k, v) ∈ acc ↔ alookup k acc = some v := by
  induction acc with
  | nil => simp [alookup]
  | cons p ps ih =>
    simp only [List.map_cons, List.nodup_cons] at h
    by_cases hp : p.1 = k
    · constructor
      · intro hm
        rcases List.mem_cons.mp hm with hc | hc
        · rw [← hc] at hp ⊢
          simp [alookup]
        · have hk : k ∈ ps.map Prod.fst := by
            have := List.mem_map_of_mem Prod.fst hc
            simpa using this
          rw [hp] at h
          exact absurd hk h.1
      · intro ha
        have hv : p.2 = v := by simpa [alookup, hp] using ha
        exact List.mem_cons.mpr (Or.inl (by rw [← hp, ← hv]))
    · constructor
      · intro hm
        rcases List.mem_cons.mp hm with hc | hc
        · exact absurd (congrArg Prod.fst hc).symm hp
        · simp only [alookup, hp, if_false]
          exact (ih h.2).mp hc
      · intro ha
        have : alookup k ps = some v := by simpa [alookup, hp] using ha
        exact List.mem_cons.mpr (Or.inr ((ih h.2).mpr this))

/-- Keys of an `upsert`-fold: those already present plus the keys of the
stream. -/
theorem foldl_upsert_keys_mem (keyf : γ → String) (g : γ → β → β) (d : γ → β) :
    ∀ (l : List γ) (acc : List (String × β)) (q : String),
    (q ∈ ((l.foldl (fun a x => upsert (keyf x) (g x) (d x) a) acc).map Prod.fst)) ↔
      q ∈ acc.map Prod.fst ∨ q ∈ l.map keyf := by
  intro l
  induction l with
  | nil => simp
  | cons x xs ih =>
    intro acc q
    simp only [List.foldl_cons, List.map_cons, List.mem_cons]
    rw [ih, upsert_keys_mem]
    tauto

theorem foldl_upsert_keys_nodup (keyf : γ → String) (g : γ → β → β) (d : γ → β) :
    ∀ (l : List γ) (acc : List (String × β)),
    (acc.map Prod.fst).Nodup →
    ((l.foldl (fun a x => upsert (keyf x) (g x) (d x) a) acc).map Prod.fst).Nodup := by
  intro l
  induction l with
  | nil => intro acc h; simpa
  | cons x xs ih =>
    intro acc h
    exact ih _ (upsert_keys_nodup _ _ _ _ h)

theorem countsOf_keys_nodup (ks : List String) : ((countsOf ks).map Prod.fst).Nodup := by
  have := foldl_upsert_keys_nodup (fun k : String => k) (fun _ n => n + 1) (fun _ => 0) ks [] (by simp)
  simpa [countsOf, bump] using this

theorem countsOf_keys_mem (ks : List String) (q : String) :
    q ∈ (countsOf ks).map Prod.fst ↔ q ∈ ks := by
  have := foldl_upsert_keys_mem (fun k : String => k) (fun _ n => n + 1) (fun _ => 0) ks [] q
  simpa [countsOf, bump] using this

/-- The count stored for `k` after feeding a key stream into the counter. -/
theorem alookup_countsOf : ∀ (ks : List String) (acc : List (String × Nat)) (k : String),
    (alookup k (ks.foldl bump acc)).getD 0 = (alookup k acc).getD 0 + ks.count k := by
  intro ks
  induction ks with
  | nil => simp
  | cons a ks ih =>
    intro acc k
    simp only [List.foldl_cons]
    rw [ih, bump, alookup_upsert]
    by_cases h : k = a
    · subst h
      simp [List.count_cons]
      omega
    · have h2 : ¬ a = k := fun hc => h hc.symm
      simp [h, List.count_cons, h2]

/-- A counter entry records exactly the multiplicity of its key in the
stream. -/
theorem countsOf_entry {ks : List String} {k : String} {n : Nat}
    (h : (k, n) ∈ countsOf ks) : k ∈ ks ∧ n = ks.count k := by
  have hl : alookup k (countsOf ks) = some n :=
    (mem_alookup_of_nodup (countsOf_keys_nodup ks)).mp h
  have hmem : k ∈ ks := by
    rw [← countsOf_keys_mem]
    by_contra hc
    rw [← alookup_eq_none] at hc
    rw [hc] at hl
    exact absurd hl (by simp)
  refine ⟨hmem, ?_⟩
  have := alookup_countsOf ks [] k
  simp only [countsOf] at hl
  rw [hl] at this
  simpa [alookup] using this

/-- Every key of the stream has a counter entry, holding its multiplicity. -/
theorem countsOf_complete {ks : List String} {k : String} (h : k ∈ ks) :
    (k, ks.count k) ∈ countsOf ks := by
  have hk : k ∈ (countsOf ks).map Prod.fst := (countsOf_keys_mem ks k).mpr h
  have hne : alookup k (countsOf ks) ≠ none := by
    intro hc
    rw [alookup_eq_none] at hc
    exact hc hk
  obtain ⟨v, hv⟩ := Option.ne_none_iff_exists'.mp hne
  have := alookup_countsOf ks [] k
  simp only [countsOf] at hv
  rw [hv] at this
  simp only [alookup, Option.getD_some, Option.getD_none] at this
  have hveq : v = ks.count k := by simpa using this
  subst hveq
  exact (mem_alookup_of_nodup (countsOf_keys_nodup ks)).mpr (by simpa [countsOf] using hv)

theorem foldl_keys_mem_multi {β γ : Type} (step : List (String × β) → γ → List (String × β))
    (keysf : γ → List String)
    (hstep : ∀ a x q, q ∈ (step a x).map Prod.fst ↔ q ∈ a.map Prod.fst ∨ q ∈ keysf x) :
    ∀ (l : List γ) (acc : List (String × β)) (q : String),
    q ∈ ((l.foldl step acc).map Prod.fst) ↔ q ∈ acc.map Prod.fst ∨ q ∈ l.flatMap keysf := by
  intro l
  induction l with
  | nil => simp
  | cons x xs ih =>
    intro acc q
    simp only [List.foldl_cons, List.flatMap_cons, List.mem_append]
    rw [ih, hstep]
    tauto

theorem foldl_keys_nodup_multi {β γ : Type} (step : List (String × β) → γ → List (String × β))
    (hstep : ∀ a x, (a.map Prod.fst).Nodup → ((step a x).map Prod.fst).Nodup) :
    ∀ (l : List γ) (acc : List (String × β)),
    (acc.map Prod.fst).Nodup → ((l.foldl step acc).map Prod.fst).Nodup := by
  intro l
  induction l with
  | nil => intro acc h; simpa
  | cons x xs ih => intro acc h; exact ih _ (hstep _ _ h)

theorem flatMap_single (f : γ → String) (l : List γ) :
    l.flatMap (fun x => [f x]) = l.map f := by
  induction l with
  | nil => rfl
  | cons x xs ih => simp [ih]

theorem devFileStats_keys_mem (commits : List CommitRecord) (q : String) :
    q ∈ (devFileStats commits).map Prod.fst ↔
      q ∈ commits.flatMap (fun c => c.files.map (fun f => f.path)) := by
  unfold devFileStats
  refine Iff.trans
    (foldl_keys_mem_multi _ (fun c : CommitRecord => c.files.map (fun f => f.path))
      ?_ commits [] q) (by simp)
  intro a c q2
  refine Iff.trans
    (foldl_keys_mem_multi _ (fun f : FileChange => [f.path]) ?_ c.files a q2)
    (by rw [flatMap_single])
  intro a2 f q3
  refine Iff.trans (upsert_keys_mem _ _ _ a2 q3) ?_
  rw [List.mem_singleton]

theorem devFileStats_keys_nodup (commits : List CommitRecord) :
    ((devFileStats commits).map Prod.fst).Nodup := by
  unfold devFileStats
  apply foldl_keys_nodup_multi
  · intro a c ha
    exact foldl_keys_nodup_multi _ (fun a2 f ha2 => upsert_keys_nodup _ _ _ _ ha2) c.files a ha
  · simp

theorem healthFileStats_keys_mem (commits : List CommitRecord) (q : String) :
    q ∈ (healthFileStats commits).map Prod.fst ↔
      q ∈ commits.flatMap (fun c => c.files.map (fun f => f.path)) := by
  unfold healthFileStats
  refine Iff.trans
    (foldl_keys_mem_multi _ (fun c : CommitRecord => c.files.map (fun f => f.path))
      ?_ commits [] q) (by simp)
  intro a c q2
  refine Iff.trans
    (foldl_keys_mem_multi _ (fun f : FileChange => [f.path]) ?_ c.files a q2)
    (by rw [flatMap_single])
  intro a2 f q3
  refine Iff.trans (upsert_keys_mem _ _ _ a2 q3) ?_
  rw [List.mem_singleton]

theorem healthFileStats_keys_nodup (commits : List CommitRecord) :
    ((healthFileStats commits).map Prod.fst).Nodup := by
  unfold healthFileStats
  apply foldl_keys_nodup_multi
  · intro a c ha
    exact foldl_keys_nodup_multi _ (fun a2 f ha2 => upsert_keys_nodup _ _ _ _ ha2) c.files a ha
  · simp

/-- Shared characterisation of `mostCommon 10 (countsOf (keys.map extKey))`
against any duplicate-free enumeration `paths` of the same path set. -/
theorem fileTypes_spec {keys paths : List String}
    (hperm : List.Perm keys paths) :
    (∀ kv ∈ mostCommon 10 (countsOf (keys.map extKey)),
        kv.1 ∈ paths.map extKey ∧ kv.2 = (paths.map extKey).count kv.1) ∧
    (mostCommon 10 (countsOf (keys.map extKey))).length ≤ 10 ∧
    List.Pairwise (fun a b : String × Nat => b.2 ≤ a.2)
      (mostCommon 10 (countsOf (keys.map extKey))) ∧
    (∀ p ∈ paths,
      (∃ kv ∈ mostCommon 10 (countsOf (keys.map extKey)), kv.1 = extKey p) ∨
      ((mostCommon 10 (countsOf (keys.map extKey))).length = 10 ∧
        ∀ kv ∈ mostCommon 10 (countsOf (keys.map extKey)),
          (paths.map extKey).count (extKey p) ≤ kv.2)) := by
  have hpermMap : List.Perm (keys.map extKey) (paths.map extKey) := hperm.map extKey
  have hsortPerm := sortDescBy_perm (fun p : String × Nat => (p.2 : Int))
    (countsOf (keys.map extKey))
  refine ⟨?_, ?_, ?_, ?_⟩
  · intro kv hkv
    have h1 : kv ∈ sortDescBy (fun p : String × Nat => (p.2 : Int)) (countsOf (keys.map extKey)) :=
      List.take_subset _ _ hkv
    have h2 : kv ∈ countsOf (keys.map extKey) := hsortPerm.subset h1
    obtain ⟨kv1, kv2⟩ := kv
    have := countsOf_entry h2
    refine ⟨hpermMap.subset this.1, ?_⟩
    rw [this.2]
    exact hpermMap.count_eq kv1
  · exact List.length_take_le _ _
  · have hs := sortDescBy_sorted (fun p : String × Nat => (p.2 : Int))
      (countsOf (keys.map extKey))
    have := hs.sublist (List.take_sublist 10 _)
    exact this.imp (fun {a b} h => by simp only [keyRel] at h; exact_mod_cast h)
  · intro p hp
    have hmem : extKey p ∈ keys.map extKey :=
      hpermMap.mem_iff.mpr (List.mem_map_of_mem extKey hp)
    have hentry := countsOf_complete hmem
    have hsorted := sortDescBy_sorted (fun p : String × Nat => (p.2 : Int))
      (countsOf (keys.map extKey))
    have hmemsort : (extKey p, (keys.map extKey).count (extKey p)) ∈
        sortDescBy (fun p : String × Nat => (p.2 : Int)) (countsOf (keys.map extKey)) :=
      hsortPerm.mem_iff.mpr hentry
    rcases mem_take_or_bound hsorted hmemsort 10 with h | ⟨hlen, hbound⟩
    · exact Or.inl ⟨_, h, rfl⟩
    · right
      refine ⟨hlen, fun kv hkv => ?_⟩
      have := hbound kv hkv
      simp only [keyRel] at this
      rw [hpermMap.count_eq (extKey p)] at this
      exact_mod_cast this

/-- Provenance of a ranked hotspot: its classification fields are those of
some accumulated file. -/
theorem rankHotspots_fields : ∀ (i : Nat) (l : List Hotspot) (x : Hotspot),
    x ∈ rankHotspots i l →
    ∃ h0 ∈ l, x.risk_level = h0.risk_level ∧ x.commits = h0.commits ∧
      x.developers = h0.developers := by
  intro i l
  induction l generalizing i with
  | nil => intro x hx; simp [rankHotspots] at hx
  | cons h hs ih =>
    intro x hx
    rcases List.mem_cons.mp hx with hc | hc
    · exact ⟨h, by simp, by rw [hc], by rw [hc], by rw [hc]⟩
    · obtain ⟨h0, hh0, hf⟩ := ih _ x hc
      exact ⟨h0, by simp [hh0], hf⟩

theorem riskLevelOf_iff (c d : Nat) :
    (riskLevelOf c d = "high" ↔ (RISK_HIGH_COMMITS < c ∨ RISK_HIGH_DEVELOPERS < d)) ∧
    (riskLevelOf c d = "medium" ↔
      (¬ (RISK_HIGH_COMMITS < c ∨ RISK_HIGH_DEVELOPERS < d) ∧
        (RISK_MEDIUM_COMMITS < c ∨ RISK_MEDIUM_DEVELOPERS < d))) ∧
    (riskLevelOf c d = "low" ↔
      (¬ (RISK_HIGH_COMMITS < c ∨ RISK_HIGH_DEVELOPERS < d) ∧
        ¬ (RISK_MEDIUM_COMMITS < c ∨ RISK_MEDIUM_DEVELOPERS < d))) := by
  unfold riskLevelOf
  by_cases h1 : RISK_HIGH_COMMITS < c ∨ RISK_HIGH_DEVELOPERS < d
  · simp only [h1, if_true]
    refine ⟨by simp [h1], ?_, ?_⟩ <;> simp [h1] <;> decide
  · simp only [h1, if_false]
    by_cases h2 : RISK_MEDIUM_COMMITS < c ∨ RISK_MEDIUM_DEVELOPERS < d
    · simp only [h2, if_true]
      refine ⟨?_, by simp [h1, h2], ?_⟩ <;> simp [h1, h2] <;> decide
    · simp only [h2, if_false]
      refine ⟨?_, ?_, by simp [h1, h2]⟩ <;> simp [h1, h2] <;> decide

/-- Provenance of a high-churn entry. -/
theorem churnEntry_inv {pa : String × FileAgg} {e : ChurnEntry}
    (h : mkChurnEntry pa = some e) :
    e.path = pa.1 ∧ e.additions = pa.2.additions ∧ e.deletions = pa.2.deletions ∧
    e.churn = pa.2.additions + pa.2.deletions ∧
    e.net_change = pa.2.additions - pa.2.deletions ∧
    HIGH_CHURN_THRESHOLD < e.churn ∧
    e.stability = (if 36028797018963968 * |e.net_change| ≥ 10808639105689191 * e.churn then
      "stable" else "unstable") := by
  unfold mkChurnEntry at h
  split at h
  next hc =>
    injection h with h
    subst h
    exact ⟨rfl, rfl, rfl, rfl, rfl, hc, rfl⟩
  next hc => exact absurd h (by simp)

/-- The source's float test `abs(net) / churn > 0.3`, for positive churn,
as the exact rational statement: the quotient reaches the rounding
midpoint `STABILITY_FLOAT_CUTOFF` just above `double(0.3)`. -/
theorem stability_bridge {net churn : Int} (hc : HIGH_CHURN_THRESHOLD < churn) :
    (36028797018963968 * |net| ≥ 10808639105689191 * churn) ↔
      STABILITY_FLOAT_CUTOFF ≤ (|net| : ℚ) / (churn : ℚ) := by
  have hc0 : (0 : ℚ) < (churn : ℚ) := by
    have h1 : (0 : Int) < churn := lt_trans (by norm_num [HIGH_CHURN_THRESHOLD]) hc
    exact_mod_cast h1
  rw [STABILITY_FLOAT_CUTOFF, div_le_div_iff (by norm_num) hc0]
  constructor
  · intro h
    have hq : (10808639105689191 : ℚ) * (churn : ℚ) ≤ 36028797018963968 * |(net : ℚ)| := by
      exact_mod_cast h
    linarith
  · intro h
    have hq : (10808639105689191 : ℚ) * (churn : ℚ) ≤ 36028797018963968 * |(net : ℚ)| := by
      linarith
    exact_mod_cast hq

/-! ## Claim theorems -/

/-- C1: every CommitRecord produced by the commit-log parser has
`stats.total_files` equal to the length of its `files` sequence,
`stats.total_additions` the sum of additions over its files, and
`stats.total_deletions` the sum of deletions over its files. -/
theorem commit_stats_invariant (raw : String) (res : List CommitRecord)
    (h : parse_commit_history raw = .ok res) :
    ∀ r ∈ res,
      r.stats.total_files = r.files.length ∧
      r.stats.total_additions = (r.files.map (fun f => f.additions)).sum ∧
      r.stats.total_deletions = (r.files.map (fun f => f.deletions)).sum := by
  intro r hr
  rw [parse_commit_history_eq_spec_aux] at h
  simp only [commitLogSpec] at h
  have hs := specRecords_stats _ _ h r hr
  rw [hs]
  exact ⟨rfl, rfl, rfl⟩

theorem commit_stats_invariant_witness :
    parse_commit_history "COMMIT|h1|Alice|a@x|2025-01-01|msg\n3\t2\ta.py\n-\t-\tbin.dat" =
      .ok [⟨"h1", "Alice", "a@x", "2025-01-01", "msg",
            [⟨"a.py", 3, 2⟩, ⟨"bin.dat", 0, 0⟩], ⟨2, 3, 2⟩⟩] ∧
    ((⟨"h1", "Alice", "a@x", "2025-01-01", "msg",
        [⟨"a.py", 3, 2⟩, ⟨"bin.dat", 0, 0⟩], ⟨2, 3, 2⟩⟩ : CommitRecord).stats.total_files =
      (⟨"h1", "Alice", "a@x", "2025-01-01", "msg",
        [⟨"a.py", 3, 2⟩, ⟨"bin.dat", 0, 0⟩], ⟨2, 3, 2⟩⟩ : CommitRecord).files.length ∧
     (⟨"h1", "Alice", "a@x", "2025-01-01", "msg",
        [⟨"a.py", 3, 2⟩, ⟨"bin.dat", 0, 0⟩], ⟨2, 3, 2⟩⟩ : CommitRecord).stats.total_additions =
      ((⟨"h1", "Alice", "a@x", "2025-01-01", "msg",
        [⟨"a.py", 3, 2⟩, ⟨"bin.dat", 0, 0⟩], ⟨2, 3, 2⟩⟩ : CommitRecord).files.map
          (fun f => f.additions)).sum ∧
     (⟨"h1", "Alice", "a@x", "2025-01-01", "msg",
        [⟨"a.py", 3, 2⟩, ⟨"bin.dat", 0, 0⟩], ⟨2, 3, 2⟩⟩ : CommitRecord).stats.total_deletions =
      ((⟨"h1", "Alice", "a@x", "2025-01-01", "msg",
        [⟨"a.py", 3, 2⟩, ⟨"bin.dat", 0, 0⟩], ⟨2, 3, 2⟩⟩ : CommitRecord).files.map
          (fun f => f.deletions)).sum) :=
  ⟨rfl,
   commit_stats_invariant "COMMIT|h1|Alice|a@x|2025-01-01|msg\n3\t2\ta.py\n-\t-\tbin.dat"
     [⟨"h1", "Alice", "a@x", "2025-01-01", "msg",
       [⟨"a.py", 3, 2⟩, ⟨"bin.dat", 0, 0⟩], ⟨2, 3, 2⟩⟩] rfl _ (by simp)⟩

/-- C2: the commit-log parser frames records exactly as the spec says: a
record starts at each line beginning with `COMMIT|` that splits into
exactly 6 pipe fields capping at 5 cuts (so a subject containing pipes is
kept in the 6th field); an invalid `COMMIT|` line is discarded together
with all its file-change lines up to the next sentinel; a record with no
file-change lines is emitted with an empty file sequence; and the final
record is flushed at end of input without a trailing sentinel —
equivalently, the parser agrees with the segment-level description
`commitLogSpec` on every input. -/
theorem commit_parser_framing (raw : String) :
    parse_commit_history raw = commitLogSpec raw :=
  parse_commit_history_eq_spec_aux raw

/-- C3 (code bug): the parsers are *not* total on malformed input — a
3-field tab line whose numeric field is neither an integer nor `-` makes
Python's `int()` raise, so both parsers propagate an error instead of
dropping the line as the spec's never-fail policy requires. -/
theorem malformed_numeric_field_raises :
    parse_commit_history "COMMIT|h|a|e|2025-01-01|m\nx\ty\tf.py" = .error "x" ∧
    parse_file_history "COMMIT|h|a|e|2025-01-01|m\nx\ty\tf.py" "f.py" = .error "x" :=
  ⟨rfl, rfl⟩

/-- C4: every parser yields an empty/all-null result on empty input, and
every aggregator yields zeroed totals and empty collections on an empty
record list — in particular `compare_developers []` returns all five
rankings null and all four totals 0 — and none of them errors. -/
theorem empty_input_behaviour :
    parse_commit_history "" = .ok [] ∧
    (∀ target_file : String, parse_file_history "" target_file = .ok []) ∧
    parse_branches "" = [] ∧
    parse_fetch_output "" = ⟨[], [], [], ""⟩ ∧
    parse_status_output "" = ⟨none, none, 0, 0, "unknown"⟩ ∧
    analyze_developer_stats [] = ⟨0, 0, 0, 0, [], [], none⟩ ∧
    compare_developers [] = ⟨⟨none, none, none, none, none⟩, ⟨0, 0, 0, 0⟩⟩ ∧
    analyze_executive_summary [] = ⟨0, 0, 0, 0, 0, 0⟩ ∧
    analyze_team_performance [] = ⟨[], 0, 0, []⟩ ∧
    analyze_code_health [] = ⟨[], [], []⟩ :=
  ⟨rfl, fun _ => rfl, rfl, rfl, rfl, rfl, rfl, rfl, rfl, rfl⟩

/-- C5: for a non-empty input, each of the five rankings is the maximum of
its metric over the developers with ties resolved to the first-scanned
candidate (`firstArgmaxZ`), and the totals are the sums over all
developers. -/
theorem comparator_rankings_and_totals (l : List DevEntry) (h : l ≠ []) :
    ((compare_developers l).rankings.most_commits =
      (firstArgmaxZ (fun d => (d.stats.total_commits : Int)) l).map
        (fun d => { developer := d.developer, value := (d.stats.total_commits : Int) })) ∧
    ((compare_developers l).rankings.most_files_changed =
      (firstArgmaxZ (fun d => (d.stats.total_files_changed : Int)) l).map
        (fun d => { developer := d.developer, value := (d.stats.total_files_changed : Int) })) ∧
    ((compare_developers l).rankings.most_additions =
      (firstArgmaxZ (fun d => d.stats.total_additions) l).map
        (fun d => { developer := d.developer, value := d.stats.total_additions })) ∧
    ((compare_developers l).rankings.most_deletions =
      (firstArgmaxZ (fun d => d.stats.total_deletions) l).map
        (fun d => { developer := d.developer, value := d.stats.total_deletions })) ∧
    ((compare_developers l).rankings.most_active =
      (firstArgmaxZ (fun d => d.stats.total_additions + d.stats.total_deletions) l).map
        (fun d => { developer := d.developer
                    value := d.stats.total_additions + d.stats.total_deletions })) ∧
    (compare_developers l).totals.total_commits =
      (l.map (fun d => d.stats.total_commits)).sum ∧
    (compare_developers l).totals.total_files_changed =
      (l.map (fun d => d.stats.total_files_changed)).sum ∧
    (compare_developers l).totals.total_additions =
      (l.map (fun d => d.stats.total_additions)).sum ∧
    (compare_developers l).totals.total_deletions =
      (l.map (fun d => d.stats.total_deletions)).sum := by
  have hl : l.isEmpty = false := by
    cases l with
    | nil => exact absurd rfl h
    | cons a as => rfl
  unfold compare_developers compare_developers_full
  simp only [hl, Bool.false_eq_true, if_false]
  refine ⟨?_, ?_, ?_, ?_, ?_, ?_, ?_, ?_, ?_⟩
  · rw [pyMaxZ_map, ← pyMaxZ_eq_firstArgmax, Option.map_map]; rfl
  · rw [pyMaxZ_map, ← pyMaxZ_eq_firstArgmax, Option.map_map]; rfl
  · rw [pyMaxZ_map, ← pyMaxZ_eq_firstArgmax, Option.map_map]; rfl
  · rw [pyMaxZ_map, ← pyMaxZ_eq_firstArgmax, Option.map_map]; rfl
  · rw [pyMaxZ_map, ← pyMaxZ_eq_firstArgmax, Option.map_map]; rfl
  · rw [List.map_map]; rfl
  · rw [List.map_map]; rfl
  · rw [List.map_map]; rfl
  · rw [List.map_map]; rfl

theorem comparator_rankings_and_totals_witness :
    ([⟨"Erik", ⟨45, 120, 2500, 800, [], [], none⟩⟩,
      ⟨"John", ⟨30, 150, 1800, 1200, [], [], none⟩⟩,
      ⟨"Jane", ⟨38, 95, 2100, 600, [], [], none⟩⟩] : List DevEntry) ≠ [] ∧
    (compare_developers
      ([⟨"Erik", ⟨45, 120, 2500, 800, [], [], none⟩⟩,
        ⟨"John", ⟨30, 150, 1800, 1200, [], [], none⟩⟩,
        ⟨"Jane", ⟨38, 95, 2100, 600, [], [], none⟩⟩] : List DevEntry)).rankings.most_commits =
      (firstArgmaxZ (fun d => (d.stats.total_commits : Int))
        ([⟨"Erik", ⟨45, 120, 2500, 800, [], [], none⟩⟩,
          ⟨"John", ⟨30, 150, 1800, 1200, [], [], none⟩⟩,
          ⟨"Jane", ⟨38, 95, 2100, 600, [], [], none⟩⟩] : List DevEntry)).map
        (fun d => { developer := d.developer, value := (d.stats.total_commits : Int) }) ∧
    (compare_developers
      ([⟨"Erik", ⟨45, 120, 2500, 800, [], [], none⟩⟩,
        ⟨"John", ⟨30, 150, 1800, 1200, [], [], none⟩⟩,
        ⟨"Jane", ⟨38, 95, 2100, 600, [], [], none⟩⟩] : List DevEntry)).rankings =
      ⟨some ⟨"Erik", 45⟩, some ⟨"John", 150⟩, some ⟨"Erik", 2500⟩,
       some ⟨"John", 1200⟩, some ⟨"Erik", 3300⟩⟩ ∧
    (compare_developers
      ([⟨"Erik", ⟨45, 120, 2500, 800, [], [], none⟩⟩,
        ⟨"John", ⟨30, 150, 1800, 1200, [], [], none⟩⟩,
        ⟨"Jane", ⟨38, 95, 2100, 600, [], [], none⟩⟩] : List DevEntry)).totals =
      ⟨113, 365, 6400, 2600⟩ :=
  ⟨List.cons_ne_nil _ _,
   (comparator_rankings_and_totals _ (List.cons_ne_nil _ _)).1,
   rfl, rfl⟩

/-- C6 (amended): in the dashboard's code-health analysis, each reported
hotspot's risk level is `high` iff commits > 15 or distinct developers
> 5, else `medium` iff commits > 8 or distinct developers > 3, else
`low`; and the high-churn list contains exactly the files with churn
(additions + deletions) above 100 — up to the top-5 cap — ordered by
churn descending, at most 5 returned, each labelled `stable` iff the
source's binary64 comparison `|additions − deletions| / churn > 0.3`
holds, i.e. iff the exact ratio is at least the rounding midpoint
`STABILITY_FLOAT_CUTOFF` just above `double(0.3)` (stated for entries
whose quotient is within the finite double range, where CPython's
division returns instead of raising OverflowError). -/
theorem code_health_classification (commits : List CommitRecord) :
    (∀ x ∈ (analyze_code_health commits).hotspots,
      (x.risk_level = "high" ↔
        (RISK_HIGH_COMMITS < x.commits ∨ RISK_HIGH_DEVELOPERS < x.developers)) ∧
      (x.risk_level = "medium" ↔
        (¬ (RISK_HIGH_COMMITS < x.commits ∨ RISK_HIGH_DEVELOPERS < x.developers) ∧
          (RISK_MEDIUM_COMMITS < x.commits ∨ RISK_MEDIUM_DEVELOPERS < x.developers))) ∧
      (x.risk_level = "low" ↔
        (¬ (RISK_HIGH_COMMITS < x.commits ∨ RISK_HIGH_DEVELOPERS < x.developers) ∧
          ¬ (RISK_MEDIUM_COMMITS < x.commits ∨ RISK_MEDIUM_DEVELOPERS < x.developers)))) ∧
    (∀ e ∈ (analyze_code_health commits).high_churn_files,
      HIGH_CHURN_THRESHOLD < e.churn ∧
      e.churn = e.additions + e.deletions ∧
      e.net_change = e.additions - e.deletions ∧
      ((|e.net_change| : ℚ) < (2 ^ 1024 - 2 ^ 970) * (e.churn : ℚ) →
        (e.stability = "stable" ↔
          STABILITY_FLOAT_CUTOFF ≤ (|e.net_change| : ℚ) / (e.churn : ℚ))) ∧
      ((|e.net_change| : ℚ) < (2 ^ 1024 - 2 ^ 970) * (e.churn : ℚ) →
        (e.stability = "unstable" ↔
          ¬ STABILITY_FLOAT_CUTOFF ≤ (|e.net_change| : ℚ) / (e.churn : ℚ)))) ∧
    List.Pairwise (fun a b : ChurnEntry => b.churn ≤ a.churn)
      (analyze_code_health commits).high_churn_files ∧
    (analyze_code_health commits).high_churn_files.length ≤ 5 ∧
    (∀ pa ∈ healthFileStats commits,
      HIGH_CHURN_THRESHOLD < pa.2.additions + pa.2.deletions →
      (∃ e ∈ (analyze_code_health commits).high_churn_files,
        e.path = pa.1 ∧ e.churn = pa.2.additions + pa.2.deletions) ∨
      ((analyze_code_health commits).high_churn_files.length = 5 ∧
        ∀ e ∈ (analyze_code_health commits).high_churn_files,
          pa.2.additions + pa.2.deletions ≤ e.churn)) := by
  by_cases hemp : commits.isEmpty
  · have hnil : commits = [] := by
      cases commits with
      | nil => rfl
      | cons c cs => simp at hemp
    subst hnil
    refine ⟨?_, ?_, ?_, ?_, ?_⟩ <;> simp [analyze_code_health, healthFileStats]
  · simp only [analyze_code_health, hemp, Bool.false_eq_true, if_false]
    refine ⟨?_, ?_, ?_, ?_, ?_⟩
    · intro x hx
      obtain ⟨h0, hh0, hrl, hcm, hdev⟩ := rankHotspots_fields 1 _ x hx
      have h1 : h0 ∈ sortDescBy (fun h => (h.commits : Int))
          ((healthFileStats commits).map mkHotspot) := List.take_subset _ _ hh0
      have h2 : h0 ∈ (healthFileStats commits).map mkHotspot :=
        (sortDescBy_perm _ _).subset h1
      obtain ⟨pa, _, hm⟩ := List.mem_map.mp h2
      have hr : h0.risk_level = riskLevelOf h0.commits h0.developers := by
        rw [← hm]; rfl
      rw [hrl, hcm, hdev, hr]
      exact riskLevelOf_iff h0.commits h0.developers
    · intro e he
      have h1 : e ∈ sortDescBy (fun e : ChurnEntry => e.churn)
          ((healthFileStats commits).filterMap mkChurnEntry) := List.take_subset _ _ he
      have h2 : e ∈ (healthFileStats commits).filterMap mkChurnEntry :=
        (sortDescBy_perm _ _).subset h1
      obtain ⟨pa, _, hmk⟩ := List.mem_filterMap.mp h2
      obtain ⟨hpth, hadd, hdel, hch, hnet, hthr, hstab⟩ := churnEntry_inv hmk
      refine ⟨hthr, by rw [hch, hadd, hdel], by rw [hnet, hadd, hdel], ?_, ?_⟩
      · intro _
        rw [hstab, ← stability_bridge hthr]
        by_cases hcond : 36028797018963968 * |e.net_change| ≥ 10808639105689191 * e.churn
        · simp [hcond]
        · simp [hcond]
      · intro _
        rw [hstab, ← stability_bridge hthr]
        by_cases hcond : 36028797018963968 * |e.net_change| ≥ 10808639105689191 * e.churn
        · simp [hcond]
        · simp [hcond]
    · exact ((sortDescBy_sorted (fun e : ChurnEntry => e.churn) _).sublist
        (List.take_sublist 5 _)).imp (fun {a b} hab => hab)
    · exact List.length_take_le _ _
    · intro pa hpa hchurn
      have hmk : mkChurnEntry pa = some
          { path := pa.1, additions := pa.2.additions, deletions := pa.2.deletions
            churn := pa.2.additions + pa.2.deletions
            net_change := pa.2.additions - pa.2.deletions
            stability :=
              if 36028797018963968 * |pa.2.additions - pa.2.deletions| ≥
                  10808639105689191 * (pa.2.additions + pa.2.deletions) then
                "stable" else "unstable" } := by
        simp [mkChurnEntry, hchurn]
      have he0 : _ ∈ (healthFileStats commits).filterMap mkChurnEntry :=
        List.mem_filterMap.mpr ⟨pa, hpa, hmk⟩
      have he0s := (sortDescBy_perm (fun e : ChurnEntry => e.churn) _).mem_iff.mpr he0
      rcases mem_take_or_bound (sortDescBy_sorted (fun e : ChurnEntry => e.churn) _) he0s 5
        with hin | ⟨hlen, hbnd⟩
      · exact Or.inl ⟨_, hin, rfl, rfl⟩
      · refine Or.inr ⟨hlen, fun e he' => ?_⟩
        exact hbnd e he'

theorem code_health_classification_witness :
    HIGH_CHURN_THRESHOLD <
      ({ path := "a.c", additions := 112, deletions := 38, churn := 150, net_change := 74
         stability := "stable" } : ChurnEntry).churn ∧
    ({ path := "a.c", additions := 112, deletions := 38, churn := 150, net_change := 74
       stability := "stable" } : ChurnEntry).churn =
      ({ path := "a.c", additions := 112, deletions := 38, churn := 150, net_change := 74
         stability := "stable" } : ChurnEntry).additions +
      ({ path := "a.c", additions := 112, deletions := 38, churn := 150, net_change := 74
         stability := "stable" } : ChurnEntry).deletions ∧
    ({ path := "a.c", additions := 112, deletions := 38, churn := 150, net_change := 74
       stability := "stable" } : ChurnEntry).net_change =
      ({ path := "a.c", additions := 112, deletions := 38, churn := 150, net_change := 74
         stability := "stable" } : ChurnEntry).additions -
      ({ path := "a.c", additions := 112, deletions := 38, churn := 150, net_change := 74
         stability := "stable" } : ChurnEntry).deletions ∧
    (({ path := "a.c", additions := 112, deletions := 38, churn := 150, net_change := 74
        stability := "stable" } : ChurnEntry).stability = "stable" ↔
      STABILITY_FLOAT_CUTOFF ≤
        (|({ path := "a.c", additions := 112, deletions := 38, churn := 150, net_change := 74
             stability := "stable" } : ChurnEntry).net_change| : ℚ) /
          (({ path := "a.c", additions := 112, deletions := 38, churn := 150, net_change := 74
              stability := "stable" } : ChurnEntry).churn : ℚ)) ∧
    (({ path := "a.c", additions := 112, deletions := 38, churn := 150, net_change := 74
        stability := "stable" } : ChurnEntry).stability = "unstable" ↔
      ¬ STABILITY_FLOAT_CUTOFF ≤
        (|({ path := "a.c", additions := 112, deletions := 38, churn := 150, net_change := 74
             stability := "stable" } : ChurnEntry).net_change| : ℚ) /
          (({ path := "a.c", additions := 112, deletions := 38, churn := 150, net_change := 74
              stability := "stable" } : ChurnEntry).churn : ℚ)) :=
  have h := (code_health_classification
    [⟨"h1", "Alice", "a@x", "2025-01-01", "m1",
      [⟨"a.c", 112, 38⟩, ⟨"b.c", 83, 67⟩, ⟨"c.c", 50, 30⟩], ⟨3, 245, 135⟩⟩]).2.1
    { path := "a.c", additions := 112, deletions := 38, churn := 150, net_change := 74
      stability := "stable" }
    (by rw [show (analyze_code_health
          [⟨"h1", "Alice", "a@x", "2025-01-01", "m1",
            [⟨"a.c", 112, 38⟩, ⟨"b.c", 83, 67⟩, ⟨"c.c", 50, 30⟩],
            ⟨3, 245, 135⟩⟩]).high_churn_files =
        [{ path := "a.c", additions := 112, deletions := 38, churn := 150, net_change := 74
           stability := "stable" },
         { path := "b.c", additions := 83, deletions := 67, churn := 150, net_change := 16
           stability := "unstable" }] from rfl]
        exact List.mem_cons_self _ _)
  ⟨h.1, h.2.1, h.2.2.1, h.2.2.2.1 (by norm_num), h.2.2.2.2 (by norm_num)⟩

/-- C6 (counterexample): the stability label follows the source's
binary64 comparison, not the exact ratio — at additions 6500000000000002
and deletions 3500000000000001 the exact ratio
3000000000000001 / 10000000000000003 exceeds 0.3, yet the correctly
rounded double quotient equals `double(0.3)` and the program labels the
file `unstable`, refuting "stable iff the ratio exceeds 0.3" as
stated. -/
theorem stability_label_uses_double_comparison :
    (analyze_code_health
      [⟨"h", "A", "a@x", "d", "m",
        [⟨"big.c", 6500000000000002, 3500000000000001⟩],
        ⟨1, 6500000000000002, 3500000000000001⟩⟩]).high_churn_files =
      [⟨"big.c", 6500000000000002, 3500000000000001, 10000000000000003,
        3000000000000001, "unstable"⟩] ∧
    STABILITY_THRESHOLD < (3000000000000001 : ℚ) / (10000000000000003 : ℚ) :=
  ⟨rfl, by norm_num [STABILITY_THRESHOLD]⟩

/-- C7 (counterexample): the histogram key is *not* the bare substring
after the last dot — the source prepends a dot (`'.' + suffix`), so a
commit touching `a.py` is counted under `.py`, and no entry has the
claimed key `py`. -/
theorem file_type_key_has_leading_dot :
    (analyze_developer_stats
      [⟨"h", "A", "a@x", "d", "m", [⟨"a.py", 1, 0⟩], ⟨1, 1, 0⟩⟩]).file_types =
      [(".py", 1)] ∧
    (analyze_code_health
      [⟨"h", "A", "a@x", "d", "m", [⟨"a.py", 1, 0⟩], ⟨1, 1, 0⟩⟩]).file_types_distribution =
      [(".py", 1)] ∧
    (".py" : String) ≠ "py" :=
  ⟨rfl, rfl, by decide⟩

/-- C7 (amended): in both extension histograms, each entry's key is the
label `extKey p` of some distinct touched path `p` — the literal
`(no extension)` when `p` has no dot, otherwise `'.'` prepended to the
substring after the last dot — each distinct path contributes exactly one
count (the entry's count is the number of distinct paths with that label),
and at most the top 10 keys by count are returned (count-descending). -/
theorem file_type_histograms (commits : List CommitRecord) :
    ((∀ kv ∈ (analyze_developer_stats commits).file_types,
        kv.1 ∈ (distinctTouchedPaths commits).map extKey ∧
        kv.2 = ((distinctTouchedPaths commits).map extKey).count kv.1) ∧
      (analyze_developer_stats commits).file_types.length ≤ 10 ∧
      List.Pairwise (fun a b : String × Nat => b.2 ≤ a.2)
        (analyze_developer_stats commits).file_types ∧
      (∀ p ∈ distinctTouchedPaths commits,
        (∃ kv ∈ (analyze_developer_stats commits).file_types, kv.1 = extKey p) ∨
        ((analyze_developer_stats commits).file_types.length = 10 ∧
          ∀ kv ∈ (analyze_developer_stats commits).file_types,
            ((distinctTouchedPaths commits).map extKey).count (extKey p) ≤ kv.2))) ∧
    ((∀ kv ∈ (analyze_code_health commits).file_types_distribution,
        kv.1 ∈ (distinctTouchedPaths commits).map extKey ∧
        kv.2 = ((distinctTouchedPaths commits).map extKey).count kv.1) ∧
      (analyze_code_health commits).file_types_distribution.length ≤ 10 ∧
      List.Pairwise (fun a b : String × Nat => b.2 ≤ a.2)
        (analyze_code_health commits).file_types_distribution ∧
      (∀ p ∈ distinctTouchedPaths commits,
        (∃ kv ∈ (analyze_code_health commits).file_types_distribution, kv.1 = extKey p) ∨
        ((analyze_code_health commits).file_types_distribution.length = 10 ∧
          ∀ kv ∈ (analyze_code_health commits).file_types_distribution,
            ((distinctTouchedPaths commits).map extKey).count (extKey p) ≤ kv.2))) := by
  by_cases hemp : commits.isEmpty
  · have hnil : commits = [] := by
      cases commits with
      | nil => rfl
      | cons c cs => simp at hemp
    subst hnil
    refine ⟨⟨?_, ?_, ?_, ?_⟩, ⟨?_, ?_, ?_, ?_⟩⟩ <;>
      simp [analyze_developer_stats, analyze_code_health, emptyDevStats, distinctTouchedPaths]
  · have hperm_dev : List.Perm ((devFileStats commits).map Prod.fst)
        (distinctTouchedPaths commits) := by
      refine (List.perm_ext_iff_of_nodup (devFileStats_keys_nodup commits)
        (List.nodup_dedup _)).mpr ?_
      intro a
      rw [devFileStats_keys_mem]
      exact (List.mem_dedup).symm
    have hperm_health : List.Perm ((healthFileStats commits).map Prod.fst)
        (distinctTouchedPaths commits) := by
      refine (List.perm_ext_iff_of_nodup (healthFileStats_keys_nodup commits)
        (List.nodup_dedup _)).mpr ?_
      intro a
      rw [healthFileStats_keys_mem]
      exact (List.mem_dedup).symm
    have hdev := fileTypes_spec hperm_dev
    have hhealth := fileTypes_spec hperm_health
    simp only [analyze_developer_stats, analyze_code_health, hemp, Bool.false_eq_true, if_false]
    exact ⟨⟨hdev.1, hdev.2.1, hdev.2.2.1, hdev.2.2.2⟩,
           ⟨hhealth.1, hhealth.2.1, hhealth.2.2.1, hhealth.2.2.2⟩⟩

theorem file_type_histograms_witness :
    ((".py", 1) : String × Nat).1 ∈
      (distinctTouchedPaths
        [⟨"h", "A", "a@x", "d", "m", [⟨"a.py", 1, 0⟩], ⟨1, 1, 0⟩⟩]).map extKey ∧
    ((".py", 1) : String × Nat).2 =
      ((distinctTouchedPaths
        [⟨"h", "A", "a@x", "d", "m", [⟨"a.py", 1, 0⟩], ⟨1, 1, 0⟩⟩]).map extKey).count
        ((".py", 1) : String × Nat).1 :=
  (file_type_histograms
    [⟨"h", "A", "a@x", "d", "m", [⟨"a.py", 1, 0⟩], ⟨1, 1, 0⟩⟩]).1.1
    (".py", 1)
    (by rw [show (analyze_developer_stats
          [⟨"h", "A", "a@x", "d", "m", [⟨"a.py", 1, 0⟩], ⟨1, 1, 0⟩⟩]).file_types =
        [(".py", 1)] from rfl]
        exact List.mem_cons_self _ _)

theorem splitCapGo_zero (sep : Char) : ∀ (s acc : List Char),
    splitCapGo sep s 0 acc = [acc.reverse ++ s] := by
  intro s
  induction s with
  | nil => intro acc; simp [splitCapGo]
  | cons c cs ih =>
    intro acc
    by_cases h : c = sep <;>
      simp [splitCapGo, h, ih, List.append_assoc]

theorem splitCap_one (s : List Char) :
    pySplitCap '|' 1 s =
      if s.contains '|' then
        [s.takeWhile (fun c => c ≠ '|'), (s.dropWhile (fun c => c ≠ '|')).tail]
      else [s] := by
  suffices go : ∀ (s acc : List Char), splitCapGo '|' s 1 acc =
      if s.contains '|' then
        [acc.reverse ++ s.takeWhile (fun c => c ≠ '|'), (s.dropWhile (fun c => c ≠ '|')).tail]
      else [acc.reverse ++ s] by
    have h := go s []
    simpa [pySplitCap] using h
  intro s
  induction s with
  | nil => intro acc; simp [splitCapGo]
  | cons c cs ih =>
    intro acc
    by_cases h : c = '|'
    · subst h
      simp [splitCapGo, splitCapGo_zero, List.takeWhile, List.dropWhile]
    · simp [splitCapGo, h, ih, List.takeWhile, List.dropWhile, List.append_assoc,
            show ¬ '|' = c from fun hc => h hc.symm]

theorem branchLine_eq (l : List Char) : branchLine l = branchLineSpec l := by
  unfold branchLine branchLineSpec
  by_cases he : (stripL l).isEmpty
  · simp [he]
  · simp only [he, Bool.false_eq_true, if_false]
    rw [splitCap_one]
    by_cases hc : (stripL l).contains '|'
    · simp only [hc, if_true]
    · simp only [hc, Bool.false_eq_true, if_false]

/-- C8 (counterexample): a line whose second pipe field is blank is kept
(with an empty date), and a line with three pipe fields is kept with the
pipes preserved inside the date — both contradict the "exactly 2 non-empty
fields" dropping rule as claimed. -/
theorem branch_lines_not_requiring_two_nonempty_fields :
    parse_branches "main|" = [⟨"main", ""⟩] ∧
    parse_branches "a|b|c" = [⟨"a", "b|c"⟩] ∧
    parse_branches "main|" ≠ [] := by
  refine ⟨rfl, rfl, ?_⟩
  intro h
  rw [show parse_branches "main|" = [⟨"main", ""⟩] from rfl] at h
  exact absurd h (by simp)

/-- C8 (amended): the branch parser keeps exactly the lines that are
non-blank after stripping, contain at least one `|`, and whose text before
the *first* `|` is non-blank; the name is that stripped prefix and the
date is everything after the first `|` (possibly blank, possibly itself
containing pipes), stripped; input order is preserved
(`parse_branches_spec` is a `filterMap` of the per-line rule). -/
theorem branch_parser_keep_rule (raw : String) :
    parse_branches raw = parse_branches_spec raw := by
  unfold parse_branches parse_branches_spec
  rw [show branchLine = branchLineSpec from funext branchLine_eq]

/-- C9: with fewer than 2 or more than 10 author names, the comparison
tool raises an invalid-argument error and issues no commit-text request to
the external tool (the trace holds no fetch event — only the repo check,
which precedes validation in the source). -/
theorem comparison_count_validation (authors : List String) (fetch : String → String)
    (h : authors.length < 2 ∨ authors.length > 10) :
    ((compare_developer_stats true authors fetch).1 =
        .error (.valueError "Must provide at least 2 developers to compare") ∨
      (compare_developer_stats true authors fetch).1 =
        .error (.valueError "Cannot compare more than 10 developers at once")) ∧
    ∀ ev ∈ (compare_developer_stats true authors fetch).2, ev.isFetch = false := by
  unfold compare_developer_stats
  rcases h with h | h
  · have hcond : authors.isEmpty = true ∨ authors.length < 2 := Or.inr h
    rw [if_neg (by simp), if_pos hcond]
    refine ⟨Or.inl rfl, ?_⟩
    intro ev hev
    simp only [List.mem_singleton] at hev
    subst hev
    rfl
  · have hc1 : ¬ (authors.isEmpty = true ∨ authors.length < 2) := by
      rintro (hc | hc)
      · rw [List.isEmpty_iff] at hc
        subst hc
        simp at h
      · omega
    rw [if_neg (by simp), if_neg hc1, if_pos h]
    refine ⟨Or.inr rfl, ?_⟩
    intro ev hev
    simp only [List.mem_singleton] at hev
    subst hev
    rfl

theorem comparison_count_validation_witness :
    (["solo"].length < 2 ∨ ["solo"].length > 10) ∧
    ((compare_developer_stats true ["solo"] (fun _ => "")).1 =
        .error (.valueError "Must provide at least 2 developers to compare") ∨
      (compare_developer_stats true ["solo"] (fun _ => "")).1 =
        .error (.valueError "Cannot compare more than 10 developers at once")) :=
  ⟨Or.inl (by decide),
   (comparison_count_validation ["solo"] (fun _ => "") (Or.inl (by decide))).1⟩

/-- C10 (counterexample): `compare_developers` does *not* leave its input
unchanged — the mutation loop adds an `activity_score` field to each
element's stats, so the caller-visible input list after the call differs
from the original. -/
theorem compare_developers_mutates_input :
    (compare_developers_full [⟨"Dev", ⟨1, 2, 3, 4, [], [], none⟩⟩]).2 ≠
      [⟨"Dev", ⟨1, 2, 3, 4, [], [], none⟩⟩] := by
  decide

/-- C10 (amended): every aggregator in the embedding is a deterministic
function of its input; the only input mutation in the family is
`compare_developers`, which sets `stats.activity_score :=
total_additions + total_deletions` on every element of its input list
(`setScore`) and changes nothing else; running it again on the
already-mutated list changes nothing further. -/
theorem compare_developers_state (l : List DevEntry) :
    (compare_developers_full l).2 = l.map setScore ∧
    (compare_developers_full ((compare_developers_full l).2)).2 =
      (compare_developers_full l).2 := by
  have hstate : ∀ (m : List DevEntry), (compare_developers_full m).2 = m.map setScore := by
    intro m
    cases m with
    | nil => rfl
    | cons d ds => rfl
  have hidem : ∀ d : DevEntry, setScore (setScore d) = setScore d := fun d => rfl
  refine ⟨hstate l, ?_⟩
  rw [hstate l, hstate (l.map setScore), List.map_map]
  exact List.map_congr_left (fun d _ => hidem d)
